import Mathlib

/-!
Verification of the `liran/mongo` data-access layer.

This file shallowly embeds the reflection-driven tag/metadata engine
(`utils.go`: `ParseTag`, `GetID`, `ParseModelIndexes`) and the
collection-accessor operations (`model.go`: `Update`, `Pagination`,
`Next`, `List`, `ListDescending`, `ListByCursor`) and proves or refutes
the specification claims about them.

Strings are manipulated through `List Char`: each helper below is a
direct model of the Go `strings` function the source calls.
-/

/-! ## Models of the Go `strings` functions used by the source -/

/-- Model of Go `strings.Split(s, sep)` for a single-character separator
(the source only splits on `","` and `"="`). -/
def splitChar (c : Char) : List Char → List (List Char)
  | [] => [[]]
  | x :: xs =>
    match splitChar c xs with
    | [] => [[]]
    | g :: gs => if x == c then [] :: g :: gs else (x :: g) :: gs

/-- Joins chunks with a single-character separator (inverse of `splitChar`,
used only to state theorems about `;`-joined tag tokens). -/
def joinSep (c : Char) : List (List Char) → List Char
  | [] => []
  | [x] => x
  | x :: y :: rest => x ++ c :: joinSep c (y :: rest)

/-- Model of Go `strings.Trim(s, cutset)`: removes leading and trailing
characters belonging to `cutset`. -/
def goTrim (cutset : List Char) (l : List Char) : List Char :=
  ((l.dropWhile cutset.contains).reverse.dropWhile cutset.contains).reverse

/-- Model of Go `strings.TrimSpace`. -/
def goTrimSpace (l : List Char) : List Char :=
  ((l.dropWhile Char.isWhitespace).reverse.dropWhile Char.isWhitespace).reverse

/-- Model of Go `strings.ToLower`. -/
def goToLower (l : List Char) : List Char := l.map Char.toLower

/-- Scanner for `replaceAllL`: at each position with `skip = 0`, a match of
`old` emits `new` and skips the remaining `old.length - 1` matched
characters; structural in the list so that it evaluates in the kernel. -/
def replaceAllAux (old new : List Char) : List Char → Nat → List Char
  | [], _ => []
  | _ :: rest, skip + 1 => replaceAllAux old new rest skip
  | c :: rest, 0 =>
    if old ≠ [] ∧ old.isPrefixOf (c :: rest)
    then new ++ replaceAllAux old new rest (old.length - 1)
    else c :: replaceAllAux old new rest 0

/-- Model of Go `strings.ReplaceAll` (non-overlapping, leftmost-first). -/
def replaceAllL (old new : List Char) (l : List Char) : List Char :=
  replaceAllAux old new l 0

/-- Model of Go `strings.HasPrefix`. -/
def goHasPrefix (pre s : String) : Bool := pre.toList.isPrefixOf s.toList

/-- Model of the external `strcase` library's snake-casing, used for
default field/collection names; never load-bearing in the theorems. -/
def toSnakeAux : Bool → List Char → List Char
  | _, [] => []
  | first, c :: rest =>
    if c.isUpper then
      (if first then [c.toLower] else ['_', c.toLower]) ++ toSnakeAux false rest
    else c :: toSnakeAux false rest

/-- Model of `ToSnake` (`utils.go`), delegating to the `strcase` model. -/
def toSnake (s : String) : String := String.mk (toSnakeAux true s.toList)

/-! ## `ParseTag` (`utils.go` lines 297-328) -/

/-- `TagInfo` (`utils.go`): parsed `db:"..."` tag descriptor. -/
structure TagInfo where
  Unique : Bool := false
  UniqueName : String := ""
  Index : Bool := false
  IndexName : String := ""
  PrimaryKey : Bool := false
deriving DecidableEq, Repr

/-- One iteration of the `ParseTag` token loop: split the token on `=`,
lower-case and trim the key, trim the value, and update the descriptor
for the recognized keys `unique`, `index`, `pk`. -/
def tagStep (info : TagInfo) (tok : List Char) : TagInfo :=
  match splitChar '=' tok with
  | [] => info
  | a0 :: rest =>
    let k := goToLower (goTrimSpace a0)
    if k.isEmpty then info
    else
      let val : List Char :=
        match rest with
        | [] => []
        | a1 :: _ => goTrimSpace a1
      if k = "unique".toList then { info with Unique := true, UniqueName := String.mk val }
      else if k = "index".toList then { info with Index := true, IndexName := String.mk val }
      else if k = "pk".toList then { info with PrimaryKey := true }
      else info

/-- The `ParseTag` loop over the comma-separated tokens. -/
def parseTagTokens (toks : List (List Char)) : TagInfo := toks.foldl tagStep {}

/-- The token list `ParseTag` folds over: trim `", ;"` from both ends of
the tag, then split on `","`. -/
def tokensOf (tag : String) : List (List Char) :=
  splitChar ',' (goTrim [',', ' ', ';'] tag.toList)

/-- `ParseTag` (`utils.go`): trim `", ;"` from both ends, split on `","`,
and fold the token loop. -/
def ParseTag (tag : String) : TagInfo :=
  parseTagTokens (tokensOf tag)

example : ParseTag "unique=user_email,index=user_name,pk" =
    { Unique := true, UniqueName := "user_email", Index := true,
      IndexName := "user_name", PrimaryKey := true } := by decide

example : ParseTag " unique , index  , pk " =
    { Unique := true, Index := true, PrimaryKey := true } := by decide

example : ParseTag "unique;index;pk" = {} := by decide

example : ParseTag "unique,index;ss,pk" =
    { Unique := true, PrimaryKey := true } := by decide

/-! ## Go values as seen by `reflect` (`utils.go` `GetID`, `ParseModelIndexes`) -/

mutual
/-- A Go value as the `reflect` walks in `utils.go` see it: a string
scalar, some other scalar kind, a (possibly nil) pointer, a struct with
its type name and fields, or a string-keyed map. -/
inductive GoVal where
  | str (s : String)
  | prim
  | ptrNil
  | ptr (v : GoVal)
  | strukt (tyName : String) (fields : List GoField)
  | gomap (entries : List (String × GoVal))
deriving Repr

/-- One struct field: Go name, exported flag, `db` tag, `bson` tag, value. -/
inductive GoField where
  | mk (name : String) (exported : Bool) (dbTag : String) (bsonTag : String) (value : GoVal)
deriving Repr
end

def GoField.name : GoField → String
  | .mk n _ _ _ _ => n

def GoField.exported : GoField → Bool
  | .mk _ e _ _ _ => e

def GoField.dbTag : GoField → String
  | .mk _ _ t _ _ => t

def GoField.bsonTag : GoField → String
  | .mk _ _ _ t _ => t

def GoField.value : GoField → GoVal
  | .mk _ _ _ _ v => v

/-- The reflection-kind test `fieldKind == reflect.Pointer ||
fieldKind == reflect.UnsafePointer || fieldKind == reflect.Struct`
guarding the recursive walks in `GetID` and `ParseModelIndexes`. -/
def isStructOrPtrKind : GoVal → Bool
  | .ptrNil => true
  | .ptr _ => true
  | .strukt _ _ => true
  | _ => false

mutual
/-- `GetID` (`utils.go` lines 100-162): dereference pointers, then on a
struct scan the fields in declaration order (per field: `db:"pk"` tag,
then `bson` tag starting with `_id`, then recursion into struct/pointer
kinds); on a map, look up the `"_id"` key. -/
def GetID : GoVal → Option GoVal
  | .ptrNil => none
  | .ptr v => GetID v
  | .strukt _ fields => getIDFields fields
  | .gomap entries => entries.lookup "_id"
  | _ => none

/-- The field loop of `GetID`. -/
def getIDFields : List GoField → Option GoVal
  | [] => none
  | .mk _ exported dbTag bsonTag value :: rest =>
    if !exported then getIDFields rest
    else if dbTag != "" && (ParseTag dbTag).PrimaryKey then some value
    else if bsonTag != "" && goHasPrefix "_id" bsonTag then some value
    else if isStructOrPtrKind value then
      match GetID value with
      | some id => some id
      | none => getIDFields rest
    else getIDFields rest
end

/-- `CompoundIndex` (`utils.go`). -/
structure CompoundIndex where
  Fields : List String
  Unique : Bool
deriving DecidableEq, Repr

/-- The `map[string]*CompoundIndex` of `ParseModelIndexes`, as an
association list (Go map iteration order is modelled as insertion
order; only the final content matters). -/
def IndexMap := List (String × CompoundIndex)
deriving DecidableEq, Repr

def IndexMap.lookup (m : IndexMap) (g : String) : Option CompoundIndex :=
  List.lookup g m

/-- The serialized field name computed by `ParseModelIndexes` from a
`bson` tag (lines 210-212): strip `omitempty`, trim spaces and commas;
an empty tag is left empty (the caller falls back to the snake-cased Go
field name). -/
def bsonCleanedName (bsonTag : String) : String :=
  if bsonTag != "" then
    String.mk (goTrim [' ', ','] (replaceAllL "omitempty".toList [] bsonTag.toList))
  else bsonTag

/-- The `dbTags.Unique` / `dbTags.Index` branches of `ParseModelIndexes`:
create the group (with the branch's `Unique` flag) only when absent, then
append the field name. An existing group's `Unique` flag is left as is. -/
def addIndexField (m : IndexMap) (group : String) (uniqueAtCreate : Bool) (fieldName : String) : IndexMap :=
  match m with
  | [] => [(group, ⟨[fieldName], uniqueAtCreate⟩)]
  | (g, ci) :: rest =>
    if g = group then (g, ⟨ci.Fields ++ [fieldName], ci.Unique⟩) :: rest
    else (g, ci) :: addIndexField rest group uniqueAtCreate fieldName

/-- One step of the nested-struct merge loop of `ParseModelIndexes`
(lines 227-236): create the group empty/non-unique when absent, append
the inner fields, and OR the unique flags. -/
def mergeIndexEntry (m : IndexMap) (group : String) (ci : CompoundIndex) : IndexMap :=
  match m with
  | [] => [(group, ⟨ci.Fields, false || ci.Unique⟩)]
  | (g, c) :: rest =>
    if g = group then (g, ⟨c.Fields ++ ci.Fields, c.Unique || ci.Unique⟩) :: rest
    else (g, c) :: mergeIndexEntry rest group ci

/-- The merge loop over a nested struct's index map. -/
def mergeIndexInfo (m : IndexMap) (inner : IndexMap) : IndexMap :=
  inner.foldl (fun acc gci => mergeIndexEntry acc gci.1 gci.2) m

mutual
/-- `ParseModelIndexes` (`utils.go` lines 174-269): dereference pointers
(nil pointer or non-struct yields an empty result), then walk the fields
accumulating the index map. -/
def ParseModelIndexes : GoVal → String × IndexMap
  | .ptrNil => ("", [])
  | .ptr v => ParseModelIndexes v
  | .strukt tyName fields => (toSnake tyName, pmiFields fields [])
  | _ => ("", [])

/-- The field loop of `ParseModelIndexes`. -/
def pmiFields : List GoField → IndexMap → IndexMap
  | [], acc => acc
  | f :: rest, acc => pmiFields rest (pmiField f acc)

/-- One field of `ParseModelIndexes` (lines 195-266): skip unexported
fields and `bson:"-"`; compute the serialized field name (cleaned `bson`
tag, else snake-cased Go name); with no `db` tag recurse into
struct/pointer kinds and merge; with a `db` tag add the field to its
unique and/or index groups. -/
def pmiField : GoField → IndexMap → IndexMap
  | .mk name exported dbTag bsonTag value, acc =>
    if !exported then acc
    else if bsonTag == "-" then acc
    else
      let cleaned := bsonCleanedName bsonTag
      let indexName := if cleaned == "" then toSnake name else cleaned
      if dbTag == "" then
        if isStructOrPtrKind value then mergeIndexInfo acc (ParseModelIndexes value).2 else acc
      else
        let dbTags := ParseTag dbTag
        let acc2 :=
          if dbTags.Unique then
            addIndexField acc (if dbTags.UniqueName == "" then indexName else dbTags.UniqueName) true indexName
          else acc
        if dbTags.Index then
          addIndexField acc2 (if dbTags.IndexName == "" then indexName else dbTags.IndexName) false indexName
        else acc2
end

example : String.mk (replaceAllL "omitempty".toList [] "_id,omitempty".toList) = "_id," := rfl

example :
    GetID (.strukt "User"
      [ .mk "Name" true "" "_id,omitempty" (.str "liran"),
        .mk "Age" true "" "age,omitempty" .prim ]) = some (.str "liran") := rfl

example :
    GetID (.strukt "Parent"
      [ .mk "ID" true "pk" "" (.str "123"),
        .mk "User" true "" "" (.ptr (.strukt "User"
          [ .mk "Name" true "" "_id,omitempty" (.str "liran") ])) ]) = some (.str "123") := rfl

example : GetID (.gomap [("_id", .str "1")]) = some (.str "1") := rfl

example :
    (ParseModelIndexes (.ptr (.strukt "Job"
      [ .mk "TaskID" true "index,unique=job_task_url" "task_id" (.str ""),
        .mk "URL" true "unique=job_task_url" "url" (.str ""),
        .mk "Status" true "index" "status" (.str ""),
        .mk "Owner" true "unique" "owner" (.str "") ]))).2 =
    [ ("job_task_url", ⟨["task_id", "url"], true⟩),
      ("task_id", ⟨["task_id"], false⟩),
      ("status", ⟨["status"], false⟩),
      ("owner", ⟨["owner"], true⟩) ] := rfl

/-! ## BSON documents (`M` of `utils.go`) and a model of the driver's
query semantics for the filter shapes this layer generates -/

/-- A BSON value: a string scalar or a nested document. The cursor and
update logic of `model.go` only ever compares string `_id` values and
builds `{$gt|$lt: <string>}` clauses, so other scalar kinds are not
needed; they would behave like non-matching values under `matchOp`. -/
inductive BVal where
  | str (s : String)
  | doc (fields : List (String × BVal))
deriving Repr

mutual
/-- Structural equality of BSON values (driver equality on documents). -/
def BVal.beq : BVal → BVal → Bool
  | .str a, .str b => a == b
  | .doc a, .doc b => BVal.beqFields a b
  | _, _ => false

def BVal.beqFields : List (String × BVal) → List (String × BVal) → Bool
  | [], [] => true
  | (k₁, v₁) :: r₁, (k₂, v₂) :: r₂ => k₁ == k₂ && BVal.beq v₁ v₂ && BVal.beqFields r₁ r₂
  | _, _ => false
end

/-- `M` (`utils.go`): a string-keyed document/map, as an association list
with unique keys (Go map iteration order is modelled as insertion order). -/
abbrev M := List (String × BVal)

/-- `M.Set` (`utils.go`): map assignment, replacing an existing key in
place or appending a new one. -/
def M.set (m : M) (k : String) (v : BVal) : M :=
  match m with
  | [] => [(k, v)]
  | (k₁, v₁) :: rest => if k₁ = k then (k, v) :: rest else (k₁, v₁) :: M.set rest k v

/-- `M.Get` (`utils.go`): map lookup. -/
def M.get (m : M) (k : String) : Option BVal := List.lookup k m

def M.keys (m : M) : List String := m.map Prod.fst

/-- Lexicographic comparison of char lists (models the server's ordering
of BSON strings). -/
def charListLt : List Char → List Char → Bool
  | [], [] => false
  | [], _ :: _ => true
  | _ :: _, [] => false
  | a :: as, b :: bs =>
    if a.toNat < b.toNat then true
    else if b.toNat < a.toNat then false
    else charListLt as bs

/-- String comparison used for `_id` ordering and `$gt`/`$lt`. -/
def strLtB (a b : String) : Bool := charListLt a.toList b.toList

/-- The string `_id` of a stored document (the cursor logic's
`last, _ = id.(string)` only ever extracts string ids; a missing or
non-string `_id` sorts like `""` in this model). -/
def idStr (d : M) : String :=
  match d.get "_id" with
  | some (.str s) => s
  | _ => ""

/-- Does a key denote a query operator (`$gt`, `$lt`, ...)? -/
def isOpKey (k : String) : Bool :=
  match k.toList with
  | '$' :: _ => true
  | _ => false

/-- One comparison operator of a filter clause, as the server evaluates
it on this layer's filters: `$gt`/`$lt` compare strings; comparisons
involving any other shape do not match. -/
def matchOp (op : String) (arg : BVal) (v : Option BVal) : Bool :=
  if op = "$gt" then
    match arg, v with
    | .str a, some (.str s) => strLtB a s
    | _, _ => false
  else if op = "$lt" then
    match arg, v with
    | .str a, some (.str s) => strLtB s a
    | _, _ => false
  else false

/-- One filter condition: an all-operator document is an operator clause,
anything else is matched by equality. -/
def matchCond (cond : BVal) (v : Option BVal) : Bool :=
  match cond with
  | .doc ops =>
    if !ops.isEmpty && ops.all (fun p => isOpKey p.1) then ops.all fun p => matchOp p.1 p.2 v
    else
      match v with
      | some w => BVal.beq (.doc ops) w
      | none => false
  | c =>
    match v with
    | some w => BVal.beq c w
    | none => false

/-- Does a document match a filter (conjunction over the filter keys)? -/
def docMatches (flt : M) (d : M) : Bool := flt.all fun kv => matchCond kv.2 (d.get kv.1)

/-- Stable insertion (insertion sort), modelling the server's sort. -/
def sortInsert (le : M → M → Bool) (x : M) : List M → List M
  | [] => [x]
  | y :: ys => if le x y then x :: y :: ys else y :: sortInsert le x ys

def sortByLe (le : M → M → Bool) : List M → List M
  | [] => []
  | x :: xs => sortInsert le x (sortByLe le xs)

/-- The string sort key of a document for a named field. -/
def fieldKey (f : String) (d : M) : String :=
  match d.get f with
  | some (.str s) => s
  | _ => ""

/-- `le` comparator for sorting on field `f`, ascending or descending. -/
def keyLe (f : String) (desc : Bool) (a b : M) : Bool :=
  if desc then !strLtB (fieldKey f a) (fieldKey f b)
  else !strLtB (fieldKey f b) (fieldKey f a)

/-- Model of the driver's `Find` with a filter, an optional single-field
sort spec `(field, descending)`, and a limit. -/
def findWithSort (store : List M) (flt : M) (sort : Option (String × Bool)) (limit : Nat) : List M :=
  let matched := store.filter (docMatches flt)
  let sorted :=
    match sort with
    | none => matched
    | some fd => sortByLe (keyLe fd.1 fd.2) matched
  sorted.take limit

/-- The `Find` issued by `ListByCursor`: sorted on `_id`. -/
def findDocs (store : List M) (flt : M) (desc : Bool) (limit : Nat) : List M :=
  findWithSort store flt (some ("_id", desc)) limit

/-! ## The heap of Go map references

`ListByCursor` copies the caller's filter map into a private map and
mutates only the copy, while `Next` writes through the caller's map
reference. To make those aliasing effects provable rather than
definitional, maps are stored in a small heap; a Go map variable is a
reference (index) into it. -/

abbrev Heap := List M

/-- Read the map behind a reference (an unallocated reference reads as
an empty map). -/
def hget (h : Heap) (r : Nat) : M := List.getD h r []

/-- Replace the map behind a reference. -/
def hset (h : Heap) (r : Nat) (m : M) : Heap := List.set h r m

/-- `m.Set(k, v)` performed through the map reference `r`. -/
def mapWrite (h : Heap) (r : Nat) (k : String) (v : BVal) : Heap :=
  hset h r ((hget h r).set k v)

/-- Allocate a fresh empty map (`Map()` of `utils.go`), returning the
new heap and the reference. -/
def halloc (h : Heap) : Heap × Nat := (h ++ [([] : M)], h.length)

/-! ## `ListByCursor` (`model.go` lines 407-472) -/

/-- Outcome of one `ListByCursor` call: the documents passed to the
callback in order, the returned error, and the number of `Find` queries
issued. `ε` is the type of callback errors. -/
structure CursorOutcome (ε : Type) where
  calls : List M
  err : Option ε
  queries : Nat

/-- State after running the `for cursor.Next` loop over one batch:
documents passed to the callback, the next invocation index, the updated
`last`/`couter` locals, and—when the callback stopped the loop—the
`(false, err)` the inner closure returned. -/
structure BatchResult (ε : Type) where
  calls : List M
  k : Nat
  last : String
  couter : Nat
  stop : Option (Option ε)

/-- The decode/callback loop over one batch (`model.go` lines 441-456).
The callback is indexed by its invocation count, modelling Go closures
that capture mutable state. -/
def runBatch (cb : Nat → M → Bool × Option ε) :
    List M → Nat → String → Nat → BatchResult ε
  | [], k, last, couter => ⟨[], k, last, couter, none⟩
  | d :: ds, k, last, couter =>
    let r0 := cb k d
    if r0.2.isSome || !r0.1 then ⟨[d], k + 1, last, couter, some r0.2⟩
    else
      let last1 :=
        match d.get "_id" with
        | some v =>
          match v with
          | .str s => s
          | _ => ""
        | none => last
      let r := runBatch cb ds (k + 1) last1 (couter + 1)
      ⟨d :: r.calls, r.k, r.last, r.couter, r.stop⟩

/-- The outer `for` loop of `ListByCursor` (lines 430-471), threading the
heap: `nref` is the reference to the private `nextFilter` map, which the
loop re-filters with `{_id: {$gt|$lt: last}}` after every full batch.
The Go loop is unbounded; `fuel` bounds the model, and exhaustion yields
`none` (the top-level entry point supplies enough fuel for every
terminating behavior proved below). The body models
`nextFilter.Set("_id", next.Set(cmpOp, last))`: since `next` holds the
single key `cmpOp` and is only read back through `nextFilter` after
being re-set, sharing the `next` map across iterations is observationally
the same as storing a fresh one-entry document. -/
def cursorLoopH (store : List M) (cb : Nat → M → Bool × Option ε) (desc : Bool) (limit : Nat) :
    Nat → Heap → Nat → Nat → Option (CursorOutcome ε × Heap)
  | 0, _, _, _ => none
  | fuel + 1, h, nref, k =>
    let cmpOp := if desc then "$lt" else "$gt"
    let batch := findDocs store (hget h nref) desc limit
    let r := runBatch cb batch k "" 0
    match r.stop with
    | some e => some (⟨r.calls, e, 1⟩, h)
    | none =>
      if r.last = "" || r.couter < limit then some (⟨r.calls, none, 1⟩, h)
      else
        let h1 := mapWrite h nref "_id" (.doc [(cmpOp, .str r.last)])
        match cursorLoopH store cb desc limit fuel h1 nref r.k with
        | none => none
        | some (o, h2) => some (⟨r.calls ++ o.calls, o.err, o.queries + 1⟩, h2)

/-- `defaultListLimit` (`model.go`). -/
def defaultListLimit : Int := 100

/-- `ModelListByCursor` (`model.go` lines 407-472): copy the caller's
filter (behind reference `fref`) into a fresh private map, clamp the
batch size, and run the cursor-chaining loop. -/
def ModelListByCursor (store : List M) (h : Heap) (fref : Nat) (desc : Bool) (limit : Int)
    (cb : Nat → M → Bool × Option ε) : Option (CursorOutcome ε × Heap) :=
  let a := halloc h
  let h2 := (hget h fref).foldl (fun hh kv => mapWrite hh a.2 kv.1 kv.2) a.1
  let lim : Nat := if limit < 1 then 100 else limit.toNat
  cursorLoopH store cb desc lim (store.length + 3) h2 a.2 0

/-- `ModelList` (`model.go` lines 396-399). -/
def ModelList (store : List M) (h : Heap) (fref : Nat)
    (cb : Nat → M → Bool × Option ε) : Option (CursorOutcome ε × Heap) :=
  ModelListByCursor store h fref false defaultListLimit cb

/-- `ModelListDescending` (`model.go` lines 402-404). -/
def ModelListDescending (store : List M) (h : Heap) (fref : Nat)
    (cb : Nat → M → Bool × Option ε) : Option (CursorOutcome ε × Heap) :=
  ModelListByCursor store h fref true defaultListLimit cb

/-- Result of the reference sequential semantics: documents passed to
the callback, the resulting error, and whether the callback stopped the
iteration (as opposed to the documents running out). -/
structure SeqResult (ε : Type) where
  calls : List M
  err : Option ε
  stopped : Bool

/-- Reference sequential semantics: feed the documents to the callback
in order until it stops or errors. The cursor-chaining theorems show
`ListByCursor` realizes this over the sorted matched documents. -/
def seqRun (cb : Nat → M → Bool × Option ε) : Nat → List M → SeqResult ε
  | _, [] => ⟨[], none, false⟩
  | k, d :: ds =>
    let r0 := cb k d
    if r0.2.isSome || !r0.1 then ⟨[d], r0.2, true⟩
    else
      let r := seqRun cb (k + 1) ds
      ⟨d :: r.calls, r.err, r.stopped⟩

/-! ## `Next` (`model.go` lines 361-392) -/

/-- `ModelNext`: with a non-empty `lastID`, writes the
`{_id: {$gt: lastID}}` clause through the caller's filter reference
(mutating the caller's map), clamps the page size, and fetches one page.
Returns the heap after the call and the page. (The `filter == nil`
branch of the source allocates a private map; the embedding takes an
allocated caller map.) -/
def ModelNext (store : List M) (h : Heap) (fref : Nat) (sort : Option (String × Bool))
    (lastID : String) (pageSize : Int) : Heap × List M :=
  let h1 := if lastID ≠ "" then mapWrite h fref "_id" (.doc [("$gt", .str lastID)]) else h
  let ps : Nat := if pageSize < 1 then 10 else pageSize.toNat
  (h1, findWithSort store (hget h1 fref) sort ps)

/-! ## `Count` and `Pagination` (`model.go` lines 306-316, 323-359) -/

/-- `ModelCount`: a nil or empty filter takes the
`EstimatedDocumentCount` path (the whole collection), anything else the
exact `CountDocuments` path. -/
def ModelCount (store : List M) (filter : Option M) : Nat :=
  match filter with
  | none => store.length
  | some f => if f.isEmpty then store.length else (store.filter (docMatches f)).length

/-- Result of `Pagination`: total count, page of documents, error, and
the number of `Find` queries issued. The embedded driver has no failing
paths, so `err` is always `none`; it is kept to state the contract. -/
structure PageResult where
  total : Nat
  list : List M
  err : Option Unit
  finds : Nat
deriving Repr

/-- `ModelPagination` (`model.go` lines 323-359): count first and stop
early (no `Find`) when the total is below 1; clamp `page`/`pageSize` to
at least 1; then fetch with skip `(page-1)*pageSize` and limit
`pageSize`. -/
def ModelPagination (store : List M) (filter : Option M) (sort : Option (String × Bool))
    (page pageSize : Int) : PageResult :=
  let total := ModelCount store filter
  if total < 1 then ⟨total, [], none, 0⟩
  else
    let page := if page < 1 then 1 else page
    let pageSize := if pageSize < 1 then 1 else pageSize
    let f := filter.getD []
    let matched := store.filter (docMatches f)
    let sorted :=
      match sort with
      | none => matched
      | some fd => sortByLe (keyLe fd.1 fd.2) matched
    ⟨total, (sorted.drop ((page - 1) * pageSize).toNat).take pageSize.toNat, none, 1⟩

/-! ## `Update` (`model.go` lines 187-220) -/

/-- Errors of `Update` reachable in the embedding. -/
inductive UpdateErr where
  | errNoID
  | errRecordNotFound
deriving DecidableEq, Repr

/-- `$set` applied to a stored document: set every patch field. -/
def applySet (d : M) (upd : M) : M := upd.foldl (fun acc kv => acc.set kv.1 kv.2) d

/-- The driver's `FindOneAndUpdate(filter: {_id: id}, {$set: upd})`:
update the first matching document in place, returning the document as
it was before the update. -/
def findOneAndUpdateSet (idv : BVal) (upd : M) : List M → List M × Option M
  | [] => ([], none)
  | d :: rest =>
    if docMatches [("_id", idv)] d then ((applySet d upd) :: rest, some d)
    else
      let r := findOneAndUpdateSet idv upd rest
      (d :: r.1, r.2)

/-- `ModelUpdate` (`model.go` lines 187-220) for a document-shaped
patch (the `update` parameter may be a struct or an `M`; `GetID` on an
`M` is the `"_id"` lookup, and the BSON marshal/unmarshal round trip of
an `M` is the identity, so the patch is taken in serialized form):
resolve the id (nil or `""` fails with `ErrNoID`), `FindOneAndUpdate`
with a `$set` of the patch (no match fails with `ErrRecordNotFound`),
then return the old document overlaid with the patch fields. -/
def ModelUpdate (store : List M) (patch : M) : List M × Except UpdateErr M :=
  match patch.get "_id" with
  | none => (store, .error .errNoID)
  | some idv =>
    if BVal.beq idv (.str "") then (store, .error .errNoID)
    else
      let r := findOneAndUpdateSet idv patch store
      match r.2 with
      | none => (r.1, .error .errRecordNotFound)
      | some old => (r.1, .ok (applySet old patch))

/-! ## Heap lemmas -/

theorem hget_eq (h : Heap) (r : Nat) : hget h r = (h[r]?).getD [] := by
  simp [hget, List.getD_eq_getElem?_getD]

theorem hget_mapWrite_self (h : Heap) (r : Nat) (k : String) (v : BVal) (hr : r < h.length) :
    hget (mapWrite h r k v) r = (hget h r).set k v := by
  simp [mapWrite, hset, hget_eq, List.getElem?_set_self hr]

theorem hget_mapWrite_ne (h : Heap) (r : Nat) (k : String) (v : BVal) (r₂ : Nat) (hne : r ≠ r₂) :
    hget (mapWrite h r k v) r₂ = hget h r₂ := by
  simp [mapWrite, hset, hget_eq, List.getElem?_set_ne hne]

theorem hget_append_left (h : Heap) (l : Heap) (r : Nat) (hr : r < h.length) :
    hget (h ++ l) r = hget h r := by
  simp [hget_eq, List.getElem?_append_left hr]

/-- The filter-copy loop of `ListByCursor` writes only through `nref`. -/
theorem copyFold_frame (entries : M) (nref : Nat) :
    ∀ (h : Heap) (r : Nat), r ≠ nref →
      hget (entries.foldl (fun hh kv => mapWrite hh nref kv.1 kv.2) h) r = hget h r := by
  induction entries with
  | nil => intro h r _; rfl
  | cons kv rest ih =>
    intro h r hr
    simp only [List.foldl_cons]
    rw [ih _ _ hr, hget_mapWrite_ne _ _ _ _ _ (fun hh => hr hh.symm)]

/-- The cursor loop writes only through its private `nextFilter`
reference. -/
theorem cursorLoopH_frame {ε : Type} (store : List M) (cb : Nat → M → Bool × Option ε)
    (desc : Bool) (limit : Nat) :
    ∀ (fuel : Nat) (h : Heap) (nref k : Nat) (out : CursorOutcome ε) (hh : Heap),
      cursorLoopH store cb desc limit fuel h nref k = some (out, hh) →
      ∀ r, r ≠ nref → hget hh r = hget h r := by
  intro fuel
  induction fuel with
  | zero => intro h nref k out hh hres; simp [cursorLoopH] at hres
  | succ n ih =>
    intro h nref k out hh hres r hr
    rw [cursorLoopH] at hres
    simp only at hres
    split at hres
    · cases hres; rfl
    · split at hres
      · cases hres; rfl
      · split at hres
        · cases hres
        · rename_i o h2 heq
          cases hres
          rw [ih _ _ _ _ _ heq r hr, hget_mapWrite_ne _ _ _ _ _ (fun hh2 => hr hh2.symm)]

/-! ## Claim C10: filter aliasing of `Next` versus `ListByCursor` -/

/-- C10: filter aliasing differs between `Next` and `ListByCursor`.
`ListByCursor` copies the caller's filter map into a private working
filter, so the caller's map (behind a valid reference) is unchanged
after the call; `Next` with a non-empty `lastID` writes the
`{_id: {$gt: lastID}}` clause directly into the caller-supplied filter
map, mutating it in place. -/
theorem filter_aliasing :
    (∀ (store : List M) (h : Heap) (fref : Nat) (sort : Option (String × Bool))
       (lastID : String) (pageSize : Int), lastID ≠ "" → fref < h.length →
      hget (ModelNext store h fref sort lastID pageSize).1 fref =
        (hget h fref).set "_id" (.doc [("$gt", .str lastID)])) ∧
    (∀ (ε : Type) (store : List M) (h : Heap) (fref : Nat) (desc : Bool) (limit : Int)
       (cb : Nat → M → Bool × Option ε) (out : CursorOutcome ε) (hh : Heap),
      fref < h.length →
      ModelListByCursor store h fref desc limit cb = some (out, hh) →
      hget hh fref = hget h fref) := by
  constructor
  · intro store h fref sort lastID pageSize hlast hfr
    simp only [ModelNext, if_pos hlast]
    exact hget_mapWrite_self _ _ _ _ hfr
  · intro ε store h fref desc limit cb out hh hfr hres
    simp only [ModelListByCursor, halloc] at hres
    have hne : fref ≠ h.length := Nat.ne_of_lt hfr
    have h2 := cursorLoopH_frame store cb desc _ _ _ _ _ _ _ hres fref hne
    rw [h2, copyFold_frame _ _ _ _ hne, hget_append_left _ _ _ hfr]

/-- Witness for C10 at a concrete input. -/
theorem filter_aliasing_witness :
    hget (ModelNext [] [[("x", .str "y")]] 0 none "a" 5).1 0 =
      [("x", .str "y"), ("_id", .doc [("$gt", .str "a")])] := by
  rw [filter_aliasing.1 [] [[("x", .str "y")]] 0 none "a" 5 (by decide) (by decide)]
  rfl

/-! ## Claim C9: `Pagination` boundaries -/

/-- C9: `Pagination` clamps `page`/`pageSize` below 1 to 1 before
computing the skip, and when the filter matches no documents it returns
total 0, an empty list, and no error, issuing no `Find` query. -/
theorem pagination_boundaries :
    (∀ (store : List M) (filter : Option M) (sort : Option (String × Bool)) (page pageSize : Int),
      ModelPagination store filter sort page pageSize =
        ModelPagination store filter sort (max page 1) (max pageSize 1)) ∧
    (∀ (store : List M) (filter : Option M) (sort : Option (String × Bool)) (page pageSize : Int),
      (store.filter (docMatches (filter.getD []))).length = 0 →
      ModelPagination store filter sort page pageSize = ⟨0, [], none, 0⟩) := by
  constructor
  · intro store filter sort page pageSize
    have h1 : (if page < 1 then (1 : Int) else page) =
        (if max page 1 < 1 then (1 : Int) else max page 1) := by
      rcases le_or_lt page 1 with h | h
      · simp [max_eq_right h]
        omega
      · rw [max_eq_left (le_of_lt h)]
    have h2 : (if pageSize < 1 then (1 : Int) else pageSize) =
        (if max pageSize 1 < 1 then (1 : Int) else max pageSize 1) := by
      rcases le_or_lt pageSize 1 with h | h
      · simp [max_eq_right h]
        omega
      · rw [max_eq_left (le_of_lt h)]
    simp only [ModelPagination, h1, h2]
  · intro store filter sort page pageSize hmatch
    have hstore : ∀ f : M, f = [] → store.filter (docMatches f) = store := by
      intro f hf
      subst hf
      exact List.filter_eq_self.mpr (fun a _ => rfl)
    have htot : ModelCount store filter = 0 := by
      match filter with
      | none =>
        have := hstore [] rfl
        simp only [Option.getD_none] at hmatch
        rw [this] at hmatch
        simpa [ModelCount] using hmatch
      | some f =>
        simp only [ModelCount]
        by_cases hf : f.isEmpty
        · have hf2 : f = [] := by
            cases f with
            | nil => rfl
            | cons a l => simp [List.isEmpty] at hf
          rw [if_pos hf]
          have := hstore f hf2
          simp only [Option.getD_some] at hmatch
          rw [this] at hmatch
          exact hmatch
        · rw [if_neg hf]
          simpa using hmatch
    simp only [ModelPagination, htot]
    rfl

/-- Witness for C9 at concrete inputs. -/
theorem pagination_boundaries_witness :
    ModelPagination [[("_id", .str "a")]] (some [("v", .str "9")]) none 0 0 = ⟨0, [], none, 0⟩ := by
  exact pagination_boundaries.2 [[("_id", .str "a")]] (some [("v", .str "9")]) none 0 0 (by rfl)

/-! ## Document map lemmas -/

theorem M.get_cons (k a : String) (b : BVal) (l : M) :
    M.get ((a, b) :: l) k = if k = a then some b else M.get l k := by
  by_cases h : k = a
  · simp [M.get, List.lookup, h]
  · have hb : (k == a) = false := beq_eq_false_iff_ne.mpr h
    simp [M.get, List.lookup, hb, h]

theorem M.get_not_in_keys (k : String) (m : M) (h : k ∉ M.keys m) : M.get m k = none := by
  induction m with
  | nil => rfl
  | cons p rest ih =>
    obtain ⟨a, b⟩ := p
    simp only [M.keys, List.map_cons, List.mem_cons] at h
    push_neg at h
    rw [M.get_cons, if_neg h.1]
    exact ih h.2

theorem M.get_set (m : M) (k : String) (v : BVal) (k₂ : String) :
    M.get (M.set m k v) k₂ = if k₂ = k then some v else M.get m k₂ := by
  induction m with
  | nil => simp [M.set, M.get_cons]
  | cons p rest ih =>
    obtain ⟨a, b⟩ := p
    by_cases hak : a = k
    · subst hak
      rw [M.set, if_pos rfl, M.get_cons, M.get_cons]
      by_cases h2 : k₂ = a <;> simp [h2]
    · rw [M.set, if_neg hak]
      by_cases h2 : k₂ = a
      · subst h2
        rw [M.get_cons, if_pos rfl, M.get_cons, if_pos rfl, if_neg hak]
      · rw [M.get_cons, if_neg h2, M.get_cons, if_neg h2, ih]

theorem applySet_get (patch : M) :
    ∀ (d : M) (k : String), (M.keys patch).Nodup →
      M.get (applySet d patch) k = Option.or (M.get patch k) (M.get d k) := by
  induction patch with
  | nil => intro d k _; rfl
  | cons p rest ih =>
    obtain ⟨k₁, v₁⟩ := p
    intro d k hnd
    simp only [M.keys, List.map_cons, List.nodup_cons] at hnd
    have hstep : applySet d ((k₁, v₁) :: rest) = applySet (M.set d k₁ v₁) rest := rfl
    rw [hstep, ih _ _ hnd.2, M.get_cons]
    by_cases hk : k = k₁
    · subst hk
      rw [if_pos rfl, M.get_not_in_keys _ _ hnd.1, M.get_set, if_pos rfl]
      rfl
    · rw [if_neg hk, M.get_set, if_neg hk]

/-! ## Claim C6: `Update` is read-modify-return -/

theorem bval_beq_str_iff (a : BVal) (s : String) : BVal.beq a (.str s) = true ↔ a = .str s := by
  cases a with
  | str t => simp [BVal.beq]
  | doc fs => simp [BVal.beq]

/-- `FindOneAndUpdate` on a store split around the first match. -/
theorem findOneAndUpdateSet_found (idv : BVal) (upd : M) :
    ∀ (pre : List M) (old : M) (post : List M),
      (∀ d ∈ pre, docMatches [("_id", idv)] d = false) →
      docMatches [("_id", idv)] old = true →
      findOneAndUpdateSet idv upd (pre ++ old :: post) =
        (pre ++ applySet old upd :: post, some old) := by
  intro pre
  induction pre with
  | nil =>
    intro old post _ hold
    simp [findOneAndUpdateSet, hold]
  | cons d rest ih =>
    intro old post hpre hold
    have hd : docMatches [("_id", idv)] d = false := hpre d (by simp)
    have hrest : ∀ x ∈ rest, docMatches [("_id", idv)] x = false :=
      fun x hx => hpre x (by simp [hx])
    simp [findOneAndUpdateSet, hd, ih old post hrest hold]

/-- `FindOneAndUpdate` on a store with no match. -/
theorem findOneAndUpdateSet_none (idv : BVal) (upd : M) :
    ∀ store : List M, (∀ d ∈ store, docMatches [("_id", idv)] d = false) →
      findOneAndUpdateSet idv upd store = (store, none) := by
  intro store
  induction store with
  | nil => intro _; rfl
  | cons d rest ih =>
    intro hall
    have hd : docMatches [("_id", idv)] d = false := hall d (by simp)
    simp [findOneAndUpdateSet, hd, ih (fun x hx => hall x (by simp [hx]))]

/-- C6: `Update` is read-modify-return. When the patch's id resolves to
an existing document, `Update` returns the old stored document overlaid
with the patch's fields (patched keys carry the new values, untouched
keys the old ones); a missing or empty-string id fails with `ErrNoID`;
an id matching no stored document fails with `ErrRecordNotFound`. -/
theorem update_read_modify_return :
    (∀ (store : List M) (patch : M) (pre post : List M) (old : M) (idv : BVal),
      M.get patch "_id" = some idv → idv ≠ .str "" →
      (M.keys patch).Nodup →
      store = pre ++ old :: post →
      (∀ d ∈ pre, docMatches [("_id", idv)] d = false) →
      docMatches [("_id", idv)] old = true →
      (ModelUpdate store patch).2 = .ok (applySet old patch) ∧
      ∀ k, M.get (applySet old patch) k = Option.or (M.get patch k) (M.get old k)) ∧
    (∀ (store : List M) (patch : M), M.get patch "_id" = none →
      ModelUpdate store patch = (store, .error .errNoID)) ∧
    (∀ (store : List M) (patch : M), M.get patch "_id" = some (.str "") →
      ModelUpdate store patch = (store, .error .errNoID)) ∧
    (∀ (store : List M) (patch : M) (idv : BVal),
      M.get patch "_id" = some idv → idv ≠ .str "" →
      (∀ d ∈ store, docMatches [("_id", idv)] d = false) →
      (ModelUpdate store patch).2 = .error .errRecordNotFound) := by
  refine ⟨?_, ?_, ?_, ?_⟩
  · intro store patch pre post old idv hid hne hnd hsplit hpre hold
    have hbeq : BVal.beq idv (.str "") = false := by
      rcases hb : BVal.beq idv (.str "") with _ | _
      · rfl
      · exact absurd ((bval_beq_str_iff _ _).mp hb) hne
    subst hsplit
    simp only [ModelUpdate, hid]
    rw [if_neg (by simp [hbeq])]
    rw [findOneAndUpdateSet_found idv patch pre old post hpre hold]
    exact ⟨rfl, fun k => applySet_get patch old k hnd⟩
  · intro store patch hid
    simp [ModelUpdate, hid]
  · intro store patch hid
    simp [ModelUpdate, hid, BVal.beq]
  · intro store patch idv hid hne hall
    have hbeq : BVal.beq idv (.str "") = false := by
      rcases hb : BVal.beq idv (.str "") with _ | _
      · rfl
      · exact absurd ((bval_beq_str_iff _ _).mp hb) hne
    simp only [ModelUpdate, hid]
    rw [if_neg (by simp [hbeq])]
    rw [findOneAndUpdateSet_none idv patch store hall]

/-- Witness for C6: `Set({_id:x, a:1, b:2})` then `Update({_id:x, a:9})`
returns `{_id:x, a:9, b:2}` (old `b` kept, new `a`), per the claim. -/
theorem update_read_modify_return_witness :
    (ModelUpdate [[("_id", .str "x"), ("a", .str "1"), ("b", .str "2")]]
      [("_id", .str "x"), ("a", .str "9")]).2 =
      .ok [("_id", .str "x"), ("a", .str "9"), ("b", .str "2")] ∧
    (ModelUpdate [[("_id", .str "x"), ("a", .str "1"), ("b", .str "2")]]
      [("a", .str "9")]).2 = .error .errNoID ∧
    (ModelUpdate [[("_id", .str "x"), ("a", .str "1"), ("b", .str "2")]]
      [("_id", .str "z"), ("a", .str "9")]).2 = .error .errRecordNotFound := by
  refine ⟨?_, ?_, ?_⟩
  · have h := (update_read_modify_return.1
      [[("_id", .str "x"), ("a", .str "1"), ("b", .str "2")]]
      [("_id", .str "x"), ("a", .str "9")]
      [] [] [("_id", .str "x"), ("a", .str "1"), ("b", .str "2")] (.str "x")
      rfl (by simp) (by decide) rfl (by simp) (by rfl)).1
    rw [h]
    rfl
  · exact congrArg Prod.snd (update_read_modify_return.2.1
      [[("_id", .str "x"), ("a", .str "1"), ("b", .str "2")]] [("a", .str "9")] rfl)
  · exact update_read_modify_return.2.2.2
      [[("_id", .str "x"), ("a", .str "1"), ("b", .str "2")]]
      [("_id", .str "z"), ("a", .str "9")] (.str "z") rfl (by simp)
      (by intro d hd; simp at hd; subst hd; rfl)

/-! ## Claim C3: primary-key resolution precedence in `GetID` -/

/-- Amended specification for `GetID` on one struct field: the
precedence `pk` tag, then `_id`-prefixed `bson` tag, then recursion into
struct/pointer kinds, applies within a single field; the scan is a
single declaration-order pass taking the first field that resolves. -/
def resolveIDField (f : GoField) : Option GoVal :=
  if !f.exported then none
  else if f.dbTag != "" && (ParseTag f.dbTag).PrimaryKey then some f.value
  else if f.bsonTag != "" && goHasPrefix "_id" f.bsonTag then some f.value
  else if isStructOrPtrKind f.value then GetID f.value
  else none

/-- C3 counterexample: with the `bson:"_id"` field declared before the
`db:"pk"` field, `GetID` returns the `_id` field's value, not the `pk`
field's — the claim's "a field tagged `pk` is chosen as the ID even when
a different field carries the `bson:"_id"` tag" fails; likewise an
embedded struct declared before a `pk` field is recursed into before the
outer `pk` field is ever checked. -/
theorem getid_precedence_counterexample :
    GetID (.strukt "S"
      [ .mk "A" true "" "_id" (.str "from-id-field"),
        .mk "B" true "pk" "" (.str "from-pk-field") ]) = some (.str "from-id-field") ∧
    GoVal.str "from-id-field" ≠ GoVal.str "from-pk-field" ∧
    GetID (.strukt "Outer"
      [ .mk "Inner" true "" "" (.strukt "Inner" [ .mk "N" true "" "_id" (.str "inner-id") ]),
        .mk "B" true "pk" "" (.str "outer-pk") ]) = some (.str "inner-id") := by
  refine ⟨rfl, ?_, rfl⟩
  intro h
  have := GoVal.str.inj h
  simp at this

/-- C3 amended: `GetID` on a struct is a single declaration-order scan
returning the first field that resolves, where a single field resolves
with precedence `pk` tag first, then `_id` serialization tag, then
depth-first recursion into embedded/pointer struct values. A `pk` tag
therefore beats an `_id` tag on the same field and any later field, but
an `_id`-tagged (or resolving embedded) field declared earlier wins. -/
theorem getid_precedence_amended :
    (∀ (name : String) (fields : List GoField),
      GetID (.strukt name fields) = fields.findSome? resolveIDField) ∧
    (∀ f : GoField, f.exported = true → f.dbTag ≠ "" → (ParseTag f.dbTag).PrimaryKey = true →
      resolveIDField f = some f.value) := by
  constructor
  · intro name fields
    show getIDFields fields = fields.findSome? resolveIDField
    induction fields with
    | nil => rfl
    | cons f rest ih =>
      obtain ⟨fn, fe, fdb, fbson, fv⟩ := f
      rw [List.findSome?_cons]
      rw [getIDFields]
      by_cases he : fe = true
      · subst he
        simp only [resolveIDField, GoField.exported, GoField.dbTag, GoField.bsonTag,
          GoField.value, Bool.not_true, Bool.false_eq_true, if_false]
        by_cases hdb : (fdb != "" && (ParseTag fdb).PrimaryKey) = true
        · simp [hdb]
        · rw [Bool.not_eq_true] at hdb
          simp only [hdb, Bool.false_eq_true, if_false]
          by_cases hb : (fbson != "" && goHasPrefix "_id" fbson) = true
          · simp [hb]
          · rw [Bool.not_eq_true] at hb
            simp only [hb, Bool.false_eq_true, if_false]
            by_cases hk : isStructOrPtrKind fv = true
            · simp only [hk, if_true]
              cases hg : GetID fv with
              | none => simpa [hg] using ih
              | some v => simp [hg]
            · rw [Bool.not_eq_true] at hk
              simpa [hk] using ih
      · have he2 : fe = false := by
          cases fe
          · rfl
          · exact absurd rfl he
        subst he2
        simpa [resolveIDField, GoField.exported] using ih
  · intro f hexp hdb hpk
    obtain ⟨fn, fe, fdb, fbson, fv⟩ := f
    simp only [GoField.exported] at hexp
    simp only [GoField.dbTag] at hdb hpk
    subst hexp
    simp [resolveIDField, GoField.exported, GoField.dbTag, GoField.value, hpk,
      bne_iff_ne, hdb]

/-- Witness for C3 amended at a concrete input. -/
theorem getid_precedence_amended_witness :
    GetID (.strukt "S"
      [ .mk "A" true "" "_id" (.str "a"), .mk "B" true "pk" "" (.str "b") ]) =
      List.findSome? resolveIDField
        [ .mk "A" true "" "_id" (.str "a"), .mk "B" true "pk" "" (.str "b") ] ∧
    resolveIDField (.mk "B" true "pk" "_id" (.str "b")) = some (.str "b") := by
  constructor
  · exact getid_precedence_amended.1 "S" _
  · exact getid_precedence_amended.2 (.mk "B" true "pk" "_id" (.str "b")) rfl
      (by decide) (by decide)

/-! ## Claim C2: index-group uniqueness -/

/-- C2 counterexample: two fields tagged into the same group `g`, with
the `index`-tagged field declared first and the `unique`-tagged field
second. The group's `Unique` flag stays `false` (the `Unique` flag is
only set when the group is created), refuting the claimed
order-independent union semantics. -/
theorem index_group_union_counterexample :
    IndexMap.lookup ((ParseModelIndexes (.strukt "T"
      [ .mk "F1" true "index=g" "f1" .prim,
        .mk "F2" true "unique=g" "f2" .prim ])).2) "g" =
      some ⟨["f1", "f2"], false⟩ ∧
    ¬ ∃ ci : CompoundIndex,
        IndexMap.lookup ((ParseModelIndexes (.strukt "T"
          [ .mk "F1" true "index=g" "f1" .prim,
            .mk "F2" true "unique=g" "f2" .prim ])).2) "g" = some ci ∧ ci.Unique = true := by
  refine ⟨rfl, ?_⟩
  rintro ⟨ci, hci, hu⟩
  have : ci = ⟨["f1", "f2"], false⟩ := by
    have h0 : some ci = some (⟨["f1", "f2"], false⟩ : CompoundIndex) := by
      rw [← hci]; rfl
    exact Option.some.inj h0
  subst this
  simp at hu

theorem addIndexField_nil (g : String) (u : Bool) (n : String) :
    addIndexField [] g u n = [(g, ⟨[n], u⟩)] := rfl

theorem addIndexField_existing (g : String) (ci : CompoundIndex) (u : Bool) (n : String) :
    addIndexField [(g, ci)] g u n = [(g, ⟨ci.Fields ++ [n], ci.Unique⟩)] := by
  simp [addIndexField]

/-- A field whose `db` tag parses to exactly one of the two group tags
(`unique` into `g`, or `index` into `g`) contributes one
`addIndexField` with the creation flag equal to its tag's `Unique`. -/
theorem pmiField_grouped (g : String) (f : GoField) (acc : IndexMap)
    (hexp : f.exported = true) (hminus : f.bsonTag ≠ "-") (hbne : f.bsonTag ≠ "")
    (hclean : bsonCleanedName f.bsonTag = f.bsonTag) (hdb : f.dbTag ≠ "")
    (htag : ParseTag f.dbTag = ⟨true, g, false, "", false⟩ ∨
            ParseTag f.dbTag = ⟨false, "", true, g, false⟩)
    (hg : g ≠ "") :
    pmiField f acc = addIndexField acc g (ParseTag f.dbTag).Unique f.bsonTag := by
  obtain ⟨fn, fe, fdb, fbson, fv⟩ := f
  simp only [GoField.exported] at hexp
  simp only [GoField.bsonTag] at hminus hbne hclean
  simp only [GoField.dbTag] at hdb htag ⊢
  subst hexp
  rcases htag with h | h <;>
    simp [pmiField, GoField.bsonTag, hminus, hdb, hg, hclean, h, hbne]

/-- The tail of the field loop over an existing single group `g`. -/
theorem pmiFields_grouped_tail (g : String) (hg : g ≠ "") :
    ∀ (rest : List GoField) (ci : CompoundIndex),
      (∀ f ∈ rest, f.exported = true ∧ f.bsonTag ≠ "-" ∧ f.bsonTag ≠ "" ∧
        bsonCleanedName f.bsonTag = f.bsonTag ∧ f.dbTag ≠ "" ∧
        (ParseTag f.dbTag = ⟨true, g, false, "", false⟩ ∨
         ParseTag f.dbTag = ⟨false, "", true, g, false⟩)) →
      pmiFields rest [(g, ci)] = [(g, ⟨ci.Fields ++ rest.map GoField.bsonTag, ci.Unique⟩)] := by
  intro rest
  induction rest with
  | nil => intro ci _; simp [pmiFields]
  | cons f tail ih =>
    intro ci hall
    obtain ⟨he, hm, hb, hc, hd, ht⟩ := hall f (by simp)
    rw [pmiFields]
    rw [pmiField_grouped g f _ he hm hb hc hd ht hg]
    rw [addIndexField_existing]
    rw [ih _ (fun x hx => hall x (by simp [hx]))]
    simp

/-- C2 amended: for fields tagged into the same group `g`, the group's
`Fields` list holds the serialized field names in declaration order, but
the `Unique` flag is decided by the field that creates the group — the
first tagged field — rather than as a union: it is `true` iff that first
field's tag declares `unique`. (With a `unique`-tagged field declared
first the claimed union behavior is observed; with an `index`-tagged
field first a later `unique` field does not flip the flag.) -/
theorem index_group_unique_amended :
    ∀ (tyName g : String) (f0 : GoField) (rest : List GoField),
      g ≠ "" →
      (∀ f ∈ f0 :: rest, f.exported = true ∧ f.bsonTag ≠ "-" ∧ f.bsonTag ≠ "" ∧
        bsonCleanedName f.bsonTag = f.bsonTag ∧ f.dbTag ≠ "" ∧
        (ParseTag f.dbTag = ⟨true, g, false, "", false⟩ ∨
         ParseTag f.dbTag = ⟨false, "", true, g, false⟩)) →
      (ParseModelIndexes (.strukt tyName (f0 :: rest))).2 =
        [(g, ⟨(f0 :: rest).map GoField.bsonTag, (ParseTag f0.dbTag).Unique⟩)] := by
  intro tyName g f0 rest hg hall
  obtain ⟨he, hm, hb, hc, hd, ht⟩ := hall f0 (by simp)
  show pmiFields (f0 :: rest) [] = _
  rw [pmiFields]
  rw [pmiField_grouped g f0 _ he hm hb hc hd ht hg]
  rw [addIndexField_nil]
  rw [pmiFields_grouped_tail g hg rest _ (fun x hx => hall x (by simp [hx]))]
  simp

/-- Witness for C2 amended: `unique`-first gives a unique group,
`index`-first a non-unique one, with fields in declaration order. -/
theorem index_group_unique_amended_witness :
    (ParseModelIndexes (.strukt "T"
      [ .mk "F1" true "unique=g" "f1" .prim,
        .mk "F2" true "index=g" "f2" .prim ])).2 = [("g", ⟨["f1", "f2"], true⟩)] ∧
    (ParseModelIndexes (.strukt "T"
      [ .mk "F1" true "index=g" "f1" .prim,
        .mk "F2" true "unique=g" "f2" .prim ])).2 = [("g", ⟨["f1", "f2"], false⟩)] := by
  constructor
  · have h := index_group_unique_amended "T" "g"
      (.mk "F1" true "unique=g" "f1" .prim) [.mk "F2" true "index=g" "f2" .prim]
      (by decide)
      (by
        intro f hf
        simp only [List.mem_cons, List.mem_singleton] at hf
        rcases hf with h1 | h1 | h1
        · subst h1; exact ⟨rfl, by decide, by decide, by decide, by decide, Or.inl (by decide)⟩
        · subst h1; exact ⟨rfl, by decide, by decide, by decide, by decide, Or.inr (by decide)⟩
        · cases h1)
    rw [h]
    rfl
  · have h := index_group_unique_amended "T" "g"
      (.mk "F1" true "index=g" "f1" .prim) [.mk "F2" true "unique=g" "f2" .prim]
      (by decide)
      (by
        intro f hf
        simp only [List.mem_cons, List.mem_singleton] at hf
        rcases hf with h1 | h1 | h1
        · subst h1; exact ⟨rfl, by decide, by decide, by decide, by decide, Or.inr (by decide)⟩
        · subst h1; exact ⟨rfl, by decide, by decide, by decide, by decide, Or.inl (by decide)⟩
        · cases h1)
    rw [h]
    rfl

/-! ## Claim C7: `ParseTag` is commutative and case-insensitive -/

/-- The normalization `ParseTag` applies to one token: the lower-cased,
space-trimmed key before the first `=`, and the space-trimmed first
value segment. -/
def normTok (tok : List Char) : List Char × List Char :=
  match splitChar '=' tok with
  | [] => ([], [])
  | a0 :: rest =>
    (goToLower (goTrimSpace a0),
      match rest with
      | [] => []
      | a1 :: _ => goTrimSpace a1)

/-- `tagStep` on a normalized `(key, value)` pair. -/
def normStep (info : TagInfo) (kv : List Char × List Char) : TagInfo :=
  if kv.1.isEmpty then info
  else if kv.1 = "unique".toList then { info with Unique := true, UniqueName := String.mk kv.2 }
  else if kv.1 = "index".toList then { info with Index := true, IndexName := String.mk kv.2 }
  else if kv.1 = "pk".toList then { info with PrimaryKey := true }
  else info

/-- Is `k` one of the keys `ParseTag` recognizes? -/
def recognizedTagKey (k : List Char) : Bool :=
  k = "unique".toList || k = "index".toList || k = "pk".toList

theorem tagStep_eq_normStep (info : TagInfo) (tok : List Char) :
    tagStep info tok = normStep info (normTok tok) := by
  rw [tagStep, normTok]
  cases splitChar '=' tok with
  | nil => rfl
  | cons a0 rest => cases rest <;> rfl

theorem normStep_unrecognized (info : TagInfo) (kv : List Char × List Char)
    (h : recognizedTagKey kv.1 = false) : normStep info kv = info := by
  rcases kv with ⟨k, v⟩
  simp only [recognizedTagKey, Bool.or_eq_false_iff, decide_eq_false_iff_not] at h
  obtain ⟨⟨h1, h2⟩, h3⟩ := h
  by_cases he : k.isEmpty = true
  · unfold normStep
    rw [if_pos he]
  · unfold normStep
    rw [if_neg he, if_neg h1, if_neg h2, if_neg h3]

/-- Two normalized tokens commute when they do not carry the same
recognized key with different payloads. -/
theorem normStep_comm (info : TagInfo) (x y : List Char × List Char)
    (h : x = y ∨ x.1 ≠ y.1 ∨ recognizedTagKey x.1 = false) :
    normStep (normStep info x) y = normStep (normStep info y) x := by
  rcases h with h | h | h
  · subst h; rfl
  · by_cases hx : recognizedTagKey x.1 = true
    · by_cases hy : recognizedTagKey y.1 = true
      · rcases x with ⟨k₁, v₁⟩
        rcases y with ⟨k₂, v₂⟩
        simp only [recognizedTagKey, Bool.or_eq_true, decide_eq_true_eq] at hx hy
        simp only at h
        rcases hx with (h1 | h1) | h1 <;> rcases hy with (h2 | h2) | h2 <;>
          subst h1 <;> subst h2 <;> simp [normStep] at h ⊢
      · rw [normStep_unrecognized _ y (by simpa using hy),
          normStep_unrecognized _ y (by simpa using hy)]
    · rw [normStep_unrecognized _ x (by simpa using hx),
        normStep_unrecognized _ x (by simpa using hx)]
  · rw [normStep_unrecognized _ x h, normStep_unrecognized _ x h]

/-- Two distinct members of a list contribute two key occurrences. -/
theorem two_mem_count_keys (l : List (List Char × List Char)) (x y : List Char × List Char)
    (hx : x ∈ l) (hy : y ∈ l) (hxy : x ≠ y) (hk : x.1 = y.1) :
    2 ≤ (l.map Prod.fst).count x.1 := by
  obtain ⟨l₁, l₂, rfl⟩ := List.append_of_mem hx
  have hy2 : y ∈ l₁ ∨ y ∈ l₂ := by
    rcases List.mem_append.mp hy with h | h
    · exact Or.inl h
    · rcases List.mem_cons.mp h with h | h
      · exact absurd h.symm hxy
      · exact Or.inr h
  have hone : 0 < (l₁.map Prod.fst).count x.1 ∨ 0 < (l₂.map Prod.fst).count x.1 := by
    rcases hy2 with h | h
    · exact Or.inl (by rw [List.count_pos_iff, hk]; exact List.mem_map_of_mem Prod.fst h)
    · exact Or.inr (by rw [List.count_pos_iff, hk]; exact List.mem_map_of_mem Prod.fst h)
  rw [List.map_append, List.map_cons, List.count_append, List.count_cons_self]
  omega

/-- C7: `ParseTag` is commutative and case-insensitive over valid
tokens, and unknown keys are dropped without affecting the descriptor:
two tag strings whose token lists normalize (lower-cased trimmed key,
trimmed value) to permutations of each other — with each recognized key
carried by at most one token — parse to the same descriptor; and
removing a token whose normalized key is not recognized leaves the
parse unchanged. -/
theorem parse_tag_commutative :
    (∀ s₁ s₂ : String,
      ((tokensOf s₁).map normTok).Perm ((tokensOf s₂).map normTok) →
      (∀ k ∈ ((tokensOf s₁).map normTok).map Prod.fst, recognizedTagKey k = true →
        (((tokensOf s₁).map normTok).map Prod.fst).count k ≤ 1) →
      ParseTag s₁ = ParseTag s₂) ∧
    (∀ (pre post : List (List Char)) (t : List Char),
      recognizedTagKey (normTok t).1 = false →
      parseTagTokens (pre ++ t :: post) = parseTagTokens (pre ++ post)) := by
  have hfold : ∀ (toks : List (List Char)) (i : TagInfo),
      toks.foldl tagStep i = (toks.map normTok).foldl normStep i := by
    intro toks
    induction toks with
    | nil => intro i; rfl
    | cons t rest ih => intro i; rw [List.foldl_cons, List.map_cons, List.foldl_cons,
        tagStep_eq_normStep, ih]
  constructor
  · intro s₁ s₂ hperm hcount
    show (tokensOf s₁).foldl tagStep ({} : TagInfo) = (tokensOf s₂).foldl tagStep ({} : TagInfo)
    rw [hfold, hfold]
    refine hperm.foldl_eq' ?_ ({} : TagInfo)
    intro x hx y hy z
    refine normStep_comm z x y ?_
    by_cases hxy : x = y
    · exact Or.inl hxy
    · by_cases hk : x.1 = y.1
      · by_cases hr : recognizedTagKey x.1 = true
        · have := two_mem_count_keys _ x y hx hy hxy hk
          have hle := hcount x.1 (List.mem_map_of_mem Prod.fst hx) hr
          omega
        · exact Or.inr (Or.inr (by simpa using hr))
      · exact Or.inr (Or.inl hk)
  · intro pre post t ht
    show (pre ++ t :: post).foldl tagStep ({} : TagInfo) =
      (pre ++ post).foldl tagStep ({} : TagInfo)
    rw [List.foldl_append, List.foldl_append, List.foldl_cons, tagStep_eq_normStep,
      normStep_unrecognized _ _ ht]

/-- Witness for C7: reordering and re-casing `"unique=a, PK"` to
`"Pk,UNIQUE=a"` parses identically, and dropping the unknown token
`"other=zz"` changes nothing. -/
theorem parse_tag_commutative_witness :
    ParseTag "unique=a, PK" = ParseTag "Pk,UNIQUE=a" ∧
    parseTagTokens ["pk".toList, "other=zz".toList, "unique".toList] =
      parseTagTokens ["pk".toList, "unique".toList] := by
  constructor
  · exact parse_tag_commutative.1 "unique=a, PK" "Pk,UNIQUE=a" (by decide) (by decide)
  · exact parse_tag_commutative.2 ["pk".toList] ["unique".toList] "other=zz".toList (by decide)

/-! ## Claim C8: `ParseTag` on `;`-separated tags -/

theorem splitChar_not_mem (c : Char) : ∀ l : List Char, c ∉ l → splitChar c l = [l] := by
  intro l
  induction l with
  | nil => intro _; rfl
  | cons x xs ih =>
    intro h
    have hx : ¬x = c := fun hh => h (by simp [hh])
    have hxs : c ∉ xs := fun hh => h (by simp [hh])
    rw [splitChar, ih hxs]
    simp [hx]

theorem dropWhile_eq_self_of_all (p : Char → Bool) (l : List Char)
    (h : ∀ x ∈ l, p x = false) : l.dropWhile p = l := by
  cases l with
  | nil => rfl
  | cons a t =>
    rw [List.dropWhile_cons, h a (by simp)]
    simp

theorem goTrimSpace_eq_self (l : List Char) (h : ∀ x ∈ l, x.isWhitespace = false) :
    goTrimSpace l = l := by
  rw [goTrimSpace, dropWhile_eq_self_of_all _ _ h,
    dropWhile_eq_self_of_all _ _ (fun x hx => h x (List.mem_reverse.mp hx)), List.reverse_reverse]

theorem goTrim_eq_self_of_ends (cs : List Char) (l : List Char)
    (hhead : ∀ c, l.head? = some c → cs.contains c = false)
    (hlast : ∀ c, l.getLast? = some c → cs.contains c = false) :
    goTrim cs l = l := by
  cases l with
  | nil => rfl
  | cons a t =>
    rw [goTrim]
    have h1 : List.dropWhile cs.contains (a :: t) = a :: t := by
      rw [List.dropWhile_cons, hhead a rfl]
      simp
    rw [h1]
    cases hr : (a :: t).reverse with
    | nil => simp at hr
    | cons b s =>
      have hbl : (a :: t).getLast? = some b := by
        rw [← List.head?_reverse, hr]
        rfl
      rw [List.dropWhile_cons, hlast b hbl]
      simp [← hr]

/-- Members of a `;`-join come from the tokens or are the separator. -/
theorem joinSep_mem (sep : Char) :
    ∀ (toks : List (List Char)) (c : Char), c ∈ joinSep sep toks →
      c = sep ∨ ∃ t ∈ toks, c ∈ t := by
  intro toks
  induction toks with
  | nil => intro c hc; cases hc
  | cons x rest ih =>
    intro c hc
    cases rest with
    | nil =>
      rw [joinSep] at hc
      exact Or.inr ⟨x, by simp, hc⟩
    | cons y rest2 =>
      rw [joinSep] at hc
      rcases List.mem_append.mp hc with h | h
      · exact Or.inr ⟨x, by simp, h⟩
      · rcases List.mem_cons.mp h with h | h
        · exact Or.inl h
        · rcases ih c h with h2 | ⟨t, ht, hct⟩
          · exact Or.inl h2
          · exact Or.inr ⟨t, by simp [List.mem_cons.mp ht], hct⟩

theorem joinSep_ne_nil (sep : Char) (x : List Char) (rest : List (List Char)) (hx : x ≠ []) :
    joinSep sep (x :: rest) ≠ [] := by
  cases rest with
  | nil => exact hx
  | cons y rest2 =>
    rw [joinSep]
    cases x with
    | nil => exact absurd rfl hx
    | cons a t => simp

theorem joinSep_head (sep : Char) (t : List Char) (toks : List (List Char)) (c : Char)
    (ht : t ≠ []) (h : (joinSep sep (t :: toks)).head? = some c) : c ∈ t := by
  cases toks with
  | nil =>
    rw [joinSep] at h
    exact List.mem_of_mem_head? (by rw [h]; simp)
  | cons y rest =>
    rw [joinSep] at h
    cases t with
    | nil => exact absurd rfl ht
    | cons a s =>
      simp only [List.cons_append, List.head?_cons, Option.some.injEq] at h
      simp [h]

theorem joinSep_getLast (sep : Char) :
    ∀ (toks : List (List Char)) (c : Char), toks ≠ [] → (∀ t ∈ toks, t ≠ []) →
      (joinSep sep toks).getLast? = some c → ∃ t ∈ toks, c ∈ t := by
  intro toks
  induction toks with
  | nil => intro c h; exact absurd rfl h
  | cons x rest ih =>
    intro c _ hall h
    cases rest with
    | nil =>
      rw [joinSep] at h
      exact ⟨x, by simp, List.mem_of_mem_getLast? h⟩
    | cons y rest2 =>
      rw [joinSep] at h
      have hjoin : joinSep sep (y :: rest2) ≠ [] :=
        joinSep_ne_nil sep y rest2 (hall y (by simp))
      have hne : (sep :: joinSep sep (y :: rest2) : List Char) ≠ [] := by simp
      rw [List.getLast?_append_of_ne_nil x hne] at h
      rw [show (sep :: joinSep sep (y :: rest2) : List Char) =
        [sep] ++ joinSep sep (y :: rest2) from rfl] at h
      rw [List.getLast?_append_of_ne_nil [sep] hjoin] at h
      rcases ih c (by simp) (fun t ht => hall t (by simp [ht])) h with ⟨t, ht, hct⟩
      exact ⟨t, by simp [List.mem_cons.mp ht], hct⟩

/-- C8 counterexample: the `;`-separated tag `"unique=a;pk"` does not
parse to the empty descriptor — the text before the first `=` is the
recognized key `unique` and everything after it (`"a;pk"`, swallowing
the `pk` token) becomes its value. -/
theorem parse_tag_semicolon_counterexample :
    ParseTag "unique=a;pk" =
      { Unique := true, UniqueName := "a;pk", Index := false, IndexName := "",
        PrimaryKey := false } ∧
    ({ Unique := true, UniqueName := "a;pk", Index := false, IndexName := "",
        PrimaryKey := false } : TagInfo) ≠ ({} : TagInfo) := by
  exact ⟨by decide, by decide⟩

/-- C8 amended: `ParseTag` is total by construction and degrades on
malformed separators: joining two or more key-only tokens (tokens free
of `=`, `,`, `;`, and whitespace) with `;` makes the whole tag a single
unrecognized token, parsed as the all-false/empty descriptor; a `;`-tag
containing `=` may instead be recognized, with the remainder absorbed
into the value (see the counterexample). -/
theorem parse_tag_semicolon_amended :
    ∀ (t₀ t₁ : List Char) (rest : List (List Char)),
      (∀ t ∈ t₀ :: t₁ :: rest, t ≠ [] ∧ ∀ c ∈ t,
        c.isWhitespace = false ∧ c ≠ ',' ∧ c ≠ ';' ∧ c ≠ '=') →
      ParseTag (String.mk (joinSep ';' (t₀ :: t₁ :: rest))) = {} := by
  intro t₀ t₁ rest hall
  have hmem : ∀ c ∈ joinSep ';' (t₀ :: t₁ :: rest),
      c = ';' ∨ (c.isWhitespace = false ∧ c ≠ ',' ∧ c ≠ ';' ∧ c ≠ '=') := by
    intro c hc
    rcases joinSep_mem ';' _ c hc with h | ⟨t, ht, hct⟩
    · exact Or.inl h
    · exact Or.inr ((hall t ht).2 c hct)
  have hnws : ∀ c ∈ joinSep ';' (t₀ :: t₁ :: rest), c.isWhitespace = false := by
    intro c hc
    rcases hmem c hc with h | h
    · subst h; decide
    · exact h.1
  have hnc : (',' : Char) ∉ joinSep ';' (t₀ :: t₁ :: rest) := by
    intro hc
    rcases hmem ',' hc with h | h
    · cases h
    · exact h.2.1 rfl
  have hneq : ('=' : Char) ∉ joinSep ';' (t₀ :: t₁ :: rest) := by
    intro hc
    rcases hmem '=' hc with h | h
    · cases h
    · exact h.2.2.2 rfl
  have hsemi : (';' : Char) ∈ joinSep ';' (t₀ :: t₁ :: rest) := by
    rw [joinSep]
    exact List.mem_append.mpr (Or.inr (by simp))
  have htrimmed : goTrim [',', ' ', ';'] (joinSep ';' (t₀ :: t₁ :: rest)) =
      joinSep ';' (t₀ :: t₁ :: rest) := by
    refine goTrim_eq_self_of_ends _ _ ?_ ?_
    · intro c hc
      have hct : c ∈ t₀ := joinSep_head ';' t₀ _ c (hall t₀ (by simp)).1 hc
      obtain ⟨hws, hc1, hc2, _⟩ := (hall t₀ (by simp)).2 c hct
      have hsp : c ≠ ' ' := fun hh => by rw [hh] at hws; cases hws
      simp [hc1, hc2, hsp]
    · intro c hc
      obtain ⟨t, ht, hct⟩ := joinSep_getLast ';' _ c (by simp)
        (fun t ht => (hall t ht).1) hc
      obtain ⟨hws, hc1, hc2, _⟩ := (hall t ht).2 c hct
      have hsp : c ≠ ' ' := fun hh => by rw [hh] at hws; cases hws
      simp [hc1, hc2, hsp]
  have hlist : (String.mk (joinSep ';' (t₀ :: t₁ :: rest))).toList =
      joinSep ';' (t₀ :: t₁ :: rest) := rfl
  rw [ParseTag, tokensOf, hlist, htrimmed, splitChar_not_mem ',' _ hnc]
  rw [show parseTagTokens [joinSep ';' (t₀ :: t₁ :: rest)] =
    tagStep {} (joinSep ';' (t₀ :: t₁ :: rest)) from rfl]
  rw [tagStep_eq_normStep]
  rw [normTok, splitChar_not_mem '=' _ hneq]
  simp only
  rw [goTrimSpace_eq_self _ hnws]
  have hsemi2 : (';' : Char) ∈ goToLower (joinSep ';' (t₀ :: t₁ :: rest)) := by
    rw [goToLower]
    have : Char.toLower ';' = ';' := by decide
    rw [← this]
    exact List.mem_map_of_mem Char.toLower hsemi
  have hne1 : goToLower (joinSep ';' (t₀ :: t₁ :: rest)) ≠ "unique".toList := by
    intro hh
    rw [hh] at hsemi2
    simp at hsemi2
  have hne2 : goToLower (joinSep ';' (t₀ :: t₁ :: rest)) ≠ "index".toList := by
    intro hh
    rw [hh] at hsemi2
    simp at hsemi2
  have hne3 : goToLower (joinSep ';' (t₀ :: t₁ :: rest)) ≠ "pk".toList := by
    intro hh
    rw [hh] at hsemi2
    simp at hsemi2
  have hnemp : (goToLower (joinSep ';' (t₀ :: t₁ :: rest))).isEmpty = false := by
    cases hgl : goToLower (joinSep ';' (t₀ :: t₁ :: rest)) with
    | nil => rw [hgl] at hsemi2; cases hsemi2
    | cons a s => rfl
  rw [normStep]
  simp only [hnemp, Bool.false_eq_true, if_false]
  rw [if_neg hne1, if_neg hne2, if_neg hne3]

/-- Witness for C8 amended: `"pk;unique"` parses as the empty
descriptor. -/
theorem parse_tag_semicolon_amended_witness :
    ParseTag (String.mk (joinSep ';' ["pk".toList, "unique".toList])) = {} := by
  refine parse_tag_semicolon_amended "pk".toList "unique".toList [] ?_
  intro t ht
  simp only [List.mem_cons, List.mem_singleton] at ht
  rcases ht with h | h | h
  · subst h; exact ⟨by decide, by decide⟩
  · subst h; exact ⟨by decide, by decide⟩
  · cases h

/-! ## String-order lemmas for the cursor proofs -/

theorem charListLt_irrefl : ∀ l : List Char, charListLt l l = false := by
  intro l
  induction l with
  | nil => rfl
  | cons a as ih => simp [charListLt, ih]

theorem charListLt_trans :
    ∀ a b c : List Char, charListLt a b = true → charListLt b c = true →
      charListLt a c = true := by
  intro a
  induction a with
  | nil =>
    intro b c hab hbc
    cases b with
    | nil => cases hab
    | cons y bs =>
      cases c with
      | nil => cases hbc
      | cons z cs => rfl
  | cons x as ih =>
    intro b c hab hbc
    cases b with
    | nil => cases hab
    | cons y bs =>
      cases c with
      | nil => cases hbc
      | cons z cs =>
        rw [charListLt] at hab hbc ⊢
        by_cases hxy : x.toNat < y.toNat
        · by_cases hyz : y.toNat < z.toNat
          · have : x.toNat < z.toNat := by omega
            simp [this]
          · rw [if_neg hyz] at hbc
            by_cases hzy : z.toNat < y.toNat
            · rw [if_pos hzy] at hbc; cases hbc
            · have : x.toNat < z.toNat := by omega
              simp [this]
        · rw [if_neg hxy] at hab
          by_cases hyx : y.toNat < x.toNat
          · rw [if_pos hyx] at hab; cases hab
          · rw [if_neg hyx] at hab
            by_cases hyz : y.toNat < z.toNat
            · have : x.toNat < z.toNat := by omega
              simp [this]
            · rw [if_neg hyz] at hbc
              by_cases hzy : z.toNat < y.toNat
              · rw [if_pos hzy] at hbc; cases hbc
              · rw [if_neg hzy] at hbc
                have h1 : ¬x.toNat < z.toNat := by omega
                have h2 : ¬z.toNat < x.toNat := by omega
                rw [if_neg h1, if_neg h2]
                exact ih bs cs hab hbc

theorem charListLt_asymm (a b : List Char) (h : charListLt a b = true) :
    charListLt b a = false := by
  rcases hba : charListLt b a with _ | _
  · rfl
  · have := charListLt_trans a b a h hba
    rw [charListLt_irrefl] at this
    cases this

theorem strLtB_trans (a b c : String) (h1 : strLtB a b = true) (h2 : strLtB b c = true) :
    strLtB a c = true := charListLt_trans _ _ _ h1 h2

theorem strLtB_asymm (a b : String) (h : strLtB a b = true) : strLtB b a = false :=
  charListLt_asymm _ _ h

theorem strLtB_irrefl (a : String) : strLtB a a = false := charListLt_irrefl _

/-! ## Sort lemmas: the `_id` sort of a query is the identity on an
already-ascending store (and reversal for descending) -/

theorem fieldKey_id (d : M) : fieldKey "_id" d = idStr d := rfl

theorem sortInsert_front (le : M → M → Bool) (x : M) (l : List M)
    (h : ∀ y, l.head? = some y → le x y = true) : sortInsert le x l = x :: l := by
  cases l with
  | nil => rfl
  | cons y ys => simp [sortInsert, h y rfl]

theorem sortInsert_back (le : M → M → Bool) (x : M) (l : List M)
    (h : ∀ y ∈ l, le x y = false) : sortInsert le x l = l ++ [x] := by
  induction l with
  | nil => rfl
  | cons y ys ih =>
    rw [sortInsert, h y (by simp), ih (fun z hz => h z (by simp [hz]))]
    simp

theorem sortByLe_sorted_id (l : List M)
    (hs : l.Pairwise (fun a b => strLtB (idStr a) (idStr b) = true)) :
    sortByLe (keyLe "_id" false) l = l := by
  induction l with
  | nil => rfl
  | cons x xs ih =>
    rw [List.pairwise_cons] at hs
    rw [sortByLe, ih hs.2]
    refine sortInsert_front _ _ _ ?_
    intro y hy
    have hxy : strLtB (idStr x) (idStr y) = true := by
      refine hs.1 y ?_
      cases xs with
      | nil => cases hy
      | cons z zs =>
        simp only [List.head?_cons, Option.some.injEq] at hy
        simp [hy]
    simp [keyLe, fieldKey_id, strLtB_asymm _ _ hxy]

theorem sortByLe_sorted_id_desc (l : List M)
    (hs : l.Pairwise (fun a b => strLtB (idStr a) (idStr b) = true)) :
    sortByLe (keyLe "_id" true) l = l.reverse := by
  induction l with
  | nil => rfl
  | cons x xs ih =>
    rw [List.pairwise_cons] at hs
    rw [sortByLe, ih hs.2, List.reverse_cons]
    refine sortInsert_back _ _ _ ?_
    intro y hy
    have hxy : strLtB (idStr x) (idStr y) = true := hs.1 y (List.mem_reverse.mp hy)
    simp [keyLe, fieldKey_id, hxy]

/-- On a strictly `r`-sorted list, filtering for the elements strictly
after the element at index `i` yields the suffix from `i + 1`. -/
theorem sorted_filter_after (r : M → M → Bool)
    (hasymm : ∀ a b, r a b = true → r b a = false)
    (hirr : ∀ a, r a a = false) :
    ∀ (l : List M) (i : Nat) (x : M), l.Pairwise (r · · = true) → l.get? i = some x →
      l.filter (fun d => r x d) = l.drop (i + 1) := by
  intro l
  induction l with
  | nil => intro i x _ hx; cases hx
  | cons y ys ih =>
    intro i x hp hx
    rw [List.pairwise_cons] at hp
    cases i with
    | zero =>
      have hxy : x = y := by
        have := hx
        simp only [List.get?_cons_zero, Option.some.injEq] at this
        exact this.symm
      subst hxy
      rw [List.filter_cons, hirr x]
      simp only [Bool.false_eq_true, if_false]
      rw [List.drop_succ_cons, List.drop_zero]
      exact List.filter_eq_self.mpr (fun a ha => hp.1 a ha)
    | succ j =>
      have hx2 : ys.get? j = some x := by
        simpa using hx
      have hxmem : x ∈ ys := List.get?_mem hx2
      have hyx : r y x = true := hp.1 x hxmem
      rw [List.filter_cons, hasymm _ _ hyx]
      simp only [Bool.false_eq_true, if_false]
      rw [List.drop_succ_cons]
      exact ih j x hp.2 hx2

/-! ## Filter-shape machinery for the cursor loop -/

/-- The `{$gt|$lt: last}` clause document built by `ListByCursor`. -/
def gtClause (desc : Bool) (last : String) : BVal :=
  .doc [(if desc then "$lt" else "$gt", .str last)]

/-- The two shapes the private `nextFilter` takes during a `ListByCursor`
run started with an empty caller filter: empty before the first batch,
`{_id: clause}` after each full batch. -/
def fltOf (desc : Bool) : Option String → M
  | none => []
  | some last => [("_id", gtClause desc last)]

theorem fltOf_set (desc : Bool) (o : Option String) (last : String) :
    M.set (fltOf desc o) "_id" (gtClause desc last) = fltOf desc (some last) := by
  cases o <;> rfl

theorem docMatches_nil (d : M) : docMatches [] d = true := rfl

/-- Matching the `{_id: {$gt|$lt: last}}` filter on a document with a
string id is the string comparison. -/
theorem docMatches_clause (desc : Bool) (last : String) (d : M) (s : String)
    (hid : M.get d "_id" = some (.str s)) :
    docMatches (fltOf desc (some last)) d =
      (if desc then strLtB s last else strLtB last s) := by
  cases desc <;>
    simp [docMatches, fltOf, gtClause, matchCond, matchOp, isOpKey, hid]

/-- The direction-order relation on documents: ascending `_id` order for
`desc = false`, descending for `desc = true`. -/
def dirLt (desc : Bool) (a b : M) : Bool :=
  if desc then strLtB (idStr b) (idStr a) else strLtB (idStr a) (idStr b)

theorem dirLt_asymm (desc : Bool) (a b : M) (h : dirLt desc a b = true) :
    dirLt desc b a = false := by
  cases desc <;> simpa [dirLt] using strLtB_asymm _ _ (by simpa [dirLt] using h)

theorem dirLt_irrefl (desc : Bool) (a : M) : dirLt desc a a = false := by
  cases desc <;> simp [dirLt, strLtB_irrefl]

theorem docMatches_clause_dirLt (desc : Bool) (d x : M) (s t : String)
    (hid : M.get d "_id" = some (.str s)) (hx : M.get x "_id" = some (.str t)) :
    docMatches (fltOf desc (some (idStr x))) d = dirLt desc x d := by
  rw [docMatches_clause desc (idStr x) d s hid]
  cases desc <;> simp [dirLt, idStr, hid, hx]

/-- The sorted result order of a `ListByCursor` batch query without the
limit: ascending store order, or its reversal when descending. -/
def sortDir (desc : Bool) (l : List M) : List M := if desc then l.reverse else l

theorem findDocs_sortedStore (store : List M) (flt : M) (desc : Bool) (limit : Nat)
    (hs : store.Pairwise (fun a b => strLtB (idStr a) (idStr b) = true)) :
    findDocs store flt desc limit =
      (sortDir desc (store.filter (docMatches flt))).take limit := by
  have hsub : (store.filter (docMatches flt)).Pairwise
      (fun a b => strLtB (idStr a) (idStr b) = true) :=
    hs.sublist (List.filter_sublist store)
  rw [findDocs, findWithSort, sortDir]
  cases desc with
  | false => rw [sortByLe_sorted_id _ hsub]; rfl
  | true => rw [sortByLe_sorted_id_desc _ hsub]; rfl

theorem idStr_eq (d : M) (s : String) (h : M.get d "_id" = some (.str s)) : idStr d = s := by
  rw [idStr, h]

theorem sortDir_mem (desc : Bool) (l : List M) (x : M) (hx : x ∈ sortDir desc l) : x ∈ l := by
  cases desc <;> simpa [sortDir] using hx

/-- The crux of the cursor-chaining argument: after a full batch whose
last delivered document is `x` (at index `i` of the remaining sorted
matched documents `rest`), re-querying with the `{_id: {$gt|$lt:
idStr x}}` filter matches exactly the documents after index `i`. -/
theorem matched_drop (store : List M) (desc : Bool)
    (hs : store.Pairwise (fun a b => strLtB (idStr a) (idStr b) = true))
    (hids : ∀ d ∈ store, ∃ s, M.get d "_id" = some (.str s) ∧ s ≠ "")
    (o : Option String) (rest : List M) (i : Nat) (x : M)
    (hrest : rest = sortDir desc (store.filter (docMatches (fltOf desc o))))
    (hx : rest.get? i = some x) :
    sortDir desc (store.filter (docMatches (fltOf desc (some (idStr x))))) =
      rest.drop (i + 1) := by
  have hxrest : x ∈ rest := List.get?_mem hx
  have hxf : x ∈ store.filter (docMatches (fltOf desc o)) := by
    rw [hrest] at hxrest
    exact sortDir_mem _ _ _ hxrest
  have hxstore : x ∈ store := List.mem_of_mem_filter hxf
  have hxp : docMatches (fltOf desc o) x = true := List.of_mem_filter hxf
  obtain ⟨t, hxt, _⟩ := hids x hxstore
  have hstep1 : store.filter (docMatches (fltOf desc (some (idStr x)))) =
      store.filter (fun d => docMatches (fltOf desc o) d && dirLt desc x d) := by
    refine List.filter_congr ?_
    intro d hd
    obtain ⟨s, hds, _⟩ := hids d hd
    rw [docMatches_clause_dirLt desc d x s t hds hxt]
    rcases hq : dirLt desc x d with _ | _
    · simp
    · have hp1 : docMatches (fltOf desc o) d = true := by
        cases o with
        | none => rfl
        | some prev =>
          rw [docMatches_clause desc prev d s hds]
          rw [docMatches_clause desc prev x t hxt] at hxp
          have hxd : dirLt desc x d = true := hq
          rw [dirLt, idStr_eq x t hxt, idStr_eq d s hds] at hxd
          cases desc with
          | false =>
            simp only [Bool.false_eq_true, if_false] at hxd hxp ⊢
            exact strLtB_trans _ _ _ hxp hxd
          | true =>
            simp only [if_true] at hxd hxp ⊢
            exact strLtB_trans _ _ _ hxd hxp
      rw [hp1]
      rfl
  have hstep2 : store.filter (fun d => docMatches (fltOf desc o) d && dirLt desc x d) =
      (store.filter (docMatches (fltOf desc o))).filter (fun d => dirLt desc x d) := by
    rw [List.filter_filter]
    refine List.filter_congr ?_
    intro d _
    exact Bool.and_comm _ _
  rw [hstep1, hstep2]
  set f₁ := store.filter (docMatches (fltOf desc o)) with hf₁
  have hf₁sorted : f₁.Pairwise (fun a b => strLtB (idStr a) (idStr b) = true) :=
    hs.sublist (List.filter_sublist store)
  cases desc with
  | false =>
    have hrest2 : rest = f₁ := by rw [hrest]; rfl
    rw [sortDir]
    simp only [Bool.false_eq_true, if_false]
    rw [← hrest2]
    refine sorted_filter_after (dirLt false) (dirLt_asymm false) (dirLt_irrefl false)
      rest i x ?_ hx
    rw [hrest2]
    simpa [dirLt] using hf₁sorted
  | true =>
    have hrest2 : rest = f₁.reverse := by rw [hrest]; rfl
    rw [sortDir]
    simp only [if_true]
    rw [← List.filter_reverse]
    rw [← hrest2]
    refine sorted_filter_after (dirLt true) (dirLt_asymm true) (dirLt_irrefl true)
      rest i x ?_ hx
    rw [hrest2]
    rw [List.pairwise_reverse]
    simpa [dirLt] using hf₁sorted

/-! ## `runBatch` versus the reference sequential semantics -/

theorem runBatch_seq {ε : Type} (cb : Nat → M → Bool × Option ε) :
    ∀ (batch : List M) (k : Nat) (last0 : String) (c0 : Nat),
      (runBatch cb batch k last0 c0).calls = (seqRun cb k batch).calls ∧
      Option.join (runBatch cb batch k last0 c0).stop = (seqRun cb k batch).err ∧
      (runBatch cb batch k last0 c0).stop.isSome = (seqRun cb k batch).stopped := by
  intro batch
  induction batch with
  | nil => intro k last0 c0; exact ⟨rfl, rfl, rfl⟩
  | cons d ds ih =>
    intro k last0 c0
    rw [runBatch, seqRun]
    by_cases hstop : ((cb k d).2.isSome || !(cb k d).1) = true
    · simp [hstop]
    · rw [Bool.not_eq_true] at hstop
      simp only [hstop, Bool.false_eq_true, if_false]
      obtain ⟨h1, h2, h3⟩ := ih (k + 1)
        (match M.get d "_id" with
         | some v => match v with | .str s => s | _ => ""
         | none => last0) (c0 + 1)
      exact ⟨by rw [h1], by rw [h2], by rw [h3]⟩

theorem runBatch_continue {ε : Type} (cb : Nat → M → Bool × Option ε) :
    ∀ (batch : List M) (k : Nat) (last0 : String) (c0 : Nat),
      (runBatch cb batch k last0 c0).stop = none →
      (runBatch cb batch k last0 c0).couter = c0 + batch.length ∧
      (runBatch cb batch k last0 c0).k = k + batch.length := by
  intro batch
  induction batch with
  | nil => intro k last0 c0 _; simp [runBatch]
  | cons d ds ih =>
    intro k last0 c0 hstop
    rw [runBatch] at hstop ⊢
    by_cases hs : ((cb k d).2.isSome || !(cb k d).1) = true
    · rw [if_pos hs] at hstop
      cases hstop
    · rw [Bool.not_eq_true] at hs
      simp only [hs, Bool.false_eq_true, if_false] at hstop ⊢
      obtain ⟨h1, h2⟩ := ih (k + 1) _ (c0 + 1) hstop
      constructor
      · rw [h1]; simp; omega
      · rw [h2]; simp; omega

theorem runBatch_last {ε : Type} (cb : Nat → M → Bool × Option ε) :
    ∀ (batch : List M) (k : Nat) (last0 : String) (c0 : Nat),
      (∀ d ∈ batch, ∃ s, M.get d "_id" = some (.str s)) →
      (runBatch cb batch k last0 c0).stop = none →
      ∀ x, batch.getLast? = some x →
        (runBatch cb batch k last0 c0).last = idStr x := by
  intro batch
  induction batch with
  | nil => intro k last0 c0 _ _ x hx; cases hx
  | cons d ds ih =>
    intro k last0 c0 hids hstop x hx
    rw [runBatch] at hstop ⊢
    by_cases hs : ((cb k d).2.isSome || !(cb k d).1) = true
    · rw [if_pos hs] at hstop
      cases hstop
    · rw [Bool.not_eq_true] at hs
      simp only [hs, Bool.false_eq_true, if_false] at hstop ⊢
      obtain ⟨s, hd⟩ := hids d (by simp)
      cases ds with
      | nil =>
        have hxd : d = x := by simpa using hx
        subst hxd
        simp only [runBatch]
        rw [hd, idStr_eq d s hd]
      | cons e es =>
        have hx2 : (e :: es).getLast? = some x := by
          rw [← hx]
          rw [List.getLast?_cons_cons]
        exact ih (k + 1) _ (c0 + 1) (fun d2 hd2 => hids d2 (by simp [hd2])) hstop x hx2

theorem seqRun_not_stopped {ε : Type} (cb : Nat → M → Bool × Option ε) :
    ∀ (l : List M) (k : Nat), (seqRun cb k l).stopped = false →
      (seqRun cb k l).calls = l ∧ (seqRun cb k l).err = none := by
  intro l
  induction l with
  | nil => intro k _; exact ⟨rfl, rfl⟩
  | cons d ds ih =>
    intro k hns
    rw [seqRun] at hns ⊢
    by_cases hs : ((cb k d).2.isSome || !(cb k d).1) = true
    · rw [if_pos hs] at hns
      cases hns
    · rw [Bool.not_eq_true] at hs
      simp only [hs, Bool.false_eq_true, if_false] at hns ⊢
      obtain ⟨h1, h2⟩ := ih (k + 1) hns
      exact ⟨by rw [h1], h2⟩

theorem seqRun_append {ε : Type} (cb : Nat → M → Bool × Option ε) :
    ∀ (l₁ l₂ : List M) (k : Nat),
      seqRun cb k (l₁ ++ l₂) =
        if (seqRun cb k l₁).stopped then seqRun cb k l₁
        else ⟨l₁ ++ (seqRun cb (k + l₁.length) l₂).calls,
              (seqRun cb (k + l₁.length) l₂).err,
              (seqRun cb (k + l₁.length) l₂).stopped⟩ := by
  intro l₁
  induction l₁ with
  | nil => intro l₂ k; simp [seqRun]
  | cons d ds ih =>
    intro l₂ k
    rw [List.cons_append, seqRun, seqRun]
    by_cases hs : ((cb k d).2.isSome || !(cb k d).1) = true
    · simp only [hs, if_true]
    · rw [Bool.not_eq_true] at hs
      simp only [hs, Bool.false_eq_true, if_false]
      rw [ih l₂ (k + 1)]
      by_cases hst : (seqRun cb (k + 1) ds).stopped = true
      · simp only [hst, if_true]
      · rw [Bool.not_eq_true] at hst
        simp only [hst, Bool.false_eq_true, if_false]
        simp only [List.length_cons, List.cons_append]
        have : k + 1 + ds.length = k + (ds.length + 1) := by omega
        rw [this]

theorem seqRun_all_true {ε : Type} (cb : Nat → M → Bool × Option ε)
    (hcb : ∀ k d, cb k d = (true, none)) :
    ∀ (l : List M) (k : Nat), seqRun cb k l = ⟨l, none, false⟩ := by
  intro l
  induction l with
  | nil => intro k; rfl
  | cons d ds ih =>
    intro k
    rw [seqRun]
    simp only [hcb k d]
    simp only [Option.isSome_none, Bool.not_true, Bool.or_self, Bool.false_eq_true, if_false]
    rw [ih (k + 1)]

/-- One unfolding step of the cursor loop. -/
theorem cursorLoopH_succ {ε : Type} (store : List M) (cb : Nat → M → Bool × Option ε)
    (desc : Bool) (limit : Nat) (n : Nat) (h : Heap) (nref k : Nat) :
    cursorLoopH store cb desc limit (n + 1) h nref k =
      (match (runBatch cb (findDocs store (hget h nref) desc limit) k "" 0).stop with
       | some e =>
         some (⟨(runBatch cb (findDocs store (hget h nref) desc limit) k "" 0).calls, e, 1⟩, h)
       | none =>
         if (runBatch cb (findDocs store (hget h nref) desc limit) k "" 0).last = "" ||
            (runBatch cb (findDocs store (hget h nref) desc limit) k "" 0).couter < limit then
           some (⟨(runBatch cb (findDocs store (hget h nref) desc limit) k "" 0).calls, none, 1⟩, h)
         else
           match cursorLoopH store cb desc limit n
               (mapWrite h nref "_id"
                 (gtClause desc (runBatch cb (findDocs store (hget h nref) desc limit) k "" 0).last))
               nref (runBatch cb (findDocs store (hget h nref) desc limit) k "" 0).k with
           | none => none
           | some (o, h2) =>
             some (⟨(runBatch cb (findDocs store (hget h nref) desc limit) k "" 0).calls ++ o.calls,
                    o.err, o.queries + 1⟩, h2)) := rfl

/-- Master lemma: started with a filter of shape `fltOf desc o` whose
sorted matched documents are `rest`, the cursor loop terminates and
behaves like the reference sequential run over `rest`, issuing at most
`rest.length / limit + 1` queries. -/
theorem cursorLoopH_master {ε : Type} (store : List M) (cb : Nat → M → Bool × Option ε)
    (desc : Bool) (limit : Nat) (hlim : 1 ≤ limit)
    (hs : store.Pairwise (fun a b => strLtB (idStr a) (idStr b) = true))
    (hids : ∀ d ∈ store, ∃ s, M.get d "_id" = some (.str s) ∧ s ≠ "") :
    ∀ (fuel : Nat) (h : Heap) (nref k : Nat) (o : Option String) (rest : List M),
      nref < h.length →
      hget h nref = fltOf desc o →
      rest = sortDir desc (store.filter (docMatches (fltOf desc o))) →
      rest.length < fuel →
      ∃ out hh, cursorLoopH store cb desc limit fuel h nref k = some (out, hh) ∧
        out.calls = (seqRun cb k rest).calls ∧
        out.err = (seqRun cb k rest).err ∧
        out.queries ≤ rest.length / limit + 1 := by
  intro fuel
  induction fuel with
  | zero => intro h nref k o rest _ _ _ hfuel; omega
  | succ n ih =>
    intro h nref k o rest hnref hflt hrest hfuel
    have hmem_rest : ∀ d ∈ rest, d ∈ store := by
      intro d hd
      rw [hrest] at hd
      exact List.mem_of_mem_filter (sortDir_mem _ _ _ hd)
    have hbatch : findDocs store (hget h nref) desc limit = rest.take limit := by
      rw [hflt, findDocs_sortedStore store _ desc limit hs, ← hrest]
    rw [cursorLoopH_succ, hbatch]
    obtain ⟨hc1, hc2, hc3⟩ := runBatch_seq cb (rest.take limit) k "" 0
    have hmem_batch : ∀ d ∈ rest.take limit, d ∈ store :=
      fun d hd => hmem_rest d (List.mem_of_mem_take hd)
    have hsplit : rest.take limit ++ rest.drop limit = rest := List.take_append_drop limit rest
    have hseq2 := seqRun_append cb (rest.take limit) (rest.drop limit) k
    rw [hsplit] at hseq2
    rcases hstop : (runBatch cb (rest.take limit) k "" 0).stop with _ | e
    · -- the batch was fully consumed without the callback stopping
      have hnotstopped : (seqRun cb k (rest.take limit)).stopped = false := by
        rw [← hc3, hstop]
        rfl
      rw [hnotstopped] at hseq2
      simp only [Bool.false_eq_true, if_false] at hseq2
      obtain ⟨hsc, hse⟩ := seqRun_not_stopped cb (rest.take limit) k hnotstopped
      obtain ⟨hcout, hk⟩ := runBatch_continue cb (rest.take limit) k "" 0 hstop
      simp only [Nat.zero_add] at hcout
      by_cases hcond : ((runBatch cb (rest.take limit) k "" 0).last = "" ||
          decide ((runBatch cb (rest.take limit) k "" 0).couter < limit)) = true
      · -- loop ends after this batch; the batch must be all of `rest`
        have hall : rest.take limit = rest := by
          rcases Bool.or_eq_true_iff.mp hcond with hlast | hlt
          · by_cases hlen : rest.length ≤ limit
            · exact List.take_of_length_le hlen
            · exfalso
              have hbl : (rest.take limit).length = limit := by
                rw [List.length_take]
                omega
              have hbne : rest.take limit ≠ [] := by
                intro hh
                rw [hh] at hbl
                simp at hbl
                omega
              obtain ⟨x, hx⟩ := Option.ne_none_iff_exists.mp
                (fun hh => hbne (List.getLast?_eq_none_iff.mp hh))
              have hlastx := runBatch_last cb (rest.take limit) k "" 0
                (fun d hd => ⟨(hids d (hmem_batch d hd)).choose,
                  (hids d (hmem_batch d hd)).choose_spec.1⟩) hstop x hx.symm
              obtain ⟨s, hxid, hsne⟩ := hids x (hmem_batch x
                (List.mem_of_mem_getLast? hx.symm))
              rw [idStr_eq x s hxid] at hlastx
              rw [hlastx] at hlast
              simp only [decide_eq_true_eq] at hlast
              exact hsne hlast
          · rw [decide_eq_true_eq] at hlt
            rw [hcout, List.length_take] at hlt
            refine List.take_of_length_le ?_
            omega
        rw [hall] at hc1 hsc hse hstop hcond
        refine ⟨⟨(runBatch cb rest k "" 0).calls, none, 1⟩, h, ?_, ?_, ?_, ?_⟩
        · rw [hall]
          simp [hstop, hcond]
        · exact hc1
        · exact hse.symm
        · show (1 : Nat) ≤ rest.length / limit + 1
          exact Nat.succ_le_succ (Nat.zero_le _)
      · -- full batch: record the last id and continue
        have hcond2 : ¬((runBatch cb (rest.take limit) k "" 0).last = "" ∨
            (runBatch cb (rest.take limit) k "" 0).couter < limit) := by
          intro hh
          apply hcond
          rcases hh with hh | hh
          · simp [hh]
          · simp [hh]
        push_neg at hcond2
        obtain ⟨hlastne, hcge⟩ := hcond2
        rw [hcout, List.length_take] at hcge
        have hlenge : limit ≤ rest.length := by omega
        have hblen : (rest.take limit).length = limit := by
          rw [List.length_take]
          omega
        have hbne : rest.take limit ≠ [] := by
          intro hh
          rw [hh] at hblen
          simp at hblen
          omega
        obtain ⟨x, hx⟩ := Option.ne_none_iff_exists.mp
          (fun hh => hbne (List.getLast?_eq_none_iff.mp hh))
        have hlastx := runBatch_last cb (rest.take limit) k "" 0
          (fun d hd => ⟨(hids d (hmem_batch d hd)).choose,
            (hids d (hmem_batch d hd)).choose_spec.1⟩) hstop x hx.symm
        have hxget : rest.get? (limit - 1) = some x := by
          have h1 : (rest.take limit).getLast? = some x := hx.symm
          rw [List.getLast?_eq_getElem?, hblen] at h1
          rw [List.get?_eq_getElem?]
          rw [← List.getElem?_take_of_lt (show limit - 1 < limit by omega)]
          exact h1
        have hdrop := matched_drop store desc hs hids o rest (limit - 1) x hrest hxget
        rw [show limit - 1 + 1 = limit by omega] at hdrop
        have hg1 : hget (mapWrite h nref "_id" (gtClause desc
            (runBatch cb (rest.take limit) k "" 0).last)) nref =
            fltOf desc (some (idStr x)) := by
          rw [hget_mapWrite_self _ _ _ _ hnref, hflt, hlastx, fltOf_set]
        have hnref2 : nref < (mapWrite h nref "_id" (gtClause desc
            (runBatch cb (rest.take limit) k "" 0).last)).length := by
          simp only [mapWrite, hset, List.length_set]
          exact hnref
        have hfuel2 : (rest.drop limit).length < n := by
          rw [List.length_drop]
          omega
        obtain ⟨out2, hh2, hrec, hrc, hre, hrq⟩ := ih
          (mapWrite h nref "_id" (gtClause desc (runBatch cb (rest.take limit) k "" 0).last))
          nref ((runBatch cb (rest.take limit) k "" 0).k) (some (idStr x)) (rest.drop limit)
          hnref2 hg1 hdrop.symm hfuel2
        have hcondf : ((runBatch cb (rest.take limit) k "" 0).last = "" ||
            decide ((runBatch cb (rest.take limit) k "" 0).couter < limit)) = false := by
          rw [Bool.or_eq_false_iff]
          constructor
          · simpa using hlastne
          · rw [decide_eq_false_iff_not, hcout, List.length_take]
            omega
        refine ⟨⟨(runBatch cb (rest.take limit) k "" 0).calls ++ out2.calls,
          out2.err, out2.queries + 1⟩, hh2, ?_, ?_, ?_, ?_⟩
        · simp only [hstop, hcondf, Bool.false_eq_true, if_false]
          rw [hrec]
        · rw [hseq2]
          show (runBatch cb (rest.take limit) k "" 0).calls ++ out2.calls =
            rest.take limit ++ (seqRun cb (k + (rest.take limit).length)
              (rest.drop limit)).calls
          rw [hc1, hsc, hrc, hk, hblen]
        · rw [hseq2]
          show out2.err = (seqRun cb (k + (rest.take limit).length) (rest.drop limit)).err
          rw [hre, hk, hblen]
        · rw [List.length_drop] at hrq
          have hdiv : rest.length / limit = (rest.length - limit) / limit + 1 :=
            Nat.div_eq_sub_div (by omega) hlenge
          show out2.queries + 1 ≤ rest.length / limit + 1
          omega
    · -- the callback stopped (or errored) inside the batch
      have hstopped : (seqRun cb k (rest.take limit)).stopped = true := by
        rw [← hc3, hstop]
        rfl
      rw [if_pos hstopped] at hseq2
      refine ⟨⟨(runBatch cb (rest.take limit) k "" 0).calls, e, 1⟩, h, ?_, ?_, ?_, ?_⟩
      · simp only [hstop]
      · rw [hseq2]
        exact hc1
      · rw [hseq2, ← hc2, hstop]
        rfl
      · show (1 : Nat) ≤ rest.length / limit + 1
        exact Nat.succ_le_succ (Nat.zero_le _)

theorem sortDir_length (desc : Bool) (l : List M) : (sortDir desc l).length = l.length := by
  cases desc <;> simp [sortDir]

theorem hget_alloc (h : Heap) : hget (h ++ [([] : M)]) h.length = [] := by
  rw [hget_eq, List.getElem?_append_right (le_refl h.length)]
  simp

/-- `ModelListByCursor` entry: with an empty caller filter and a store of
strictly ascending, nonempty string ids, the run terminates and performs
the reference sequential run over the direction-sorted store. -/
theorem ModelListByCursor_run {ε : Type} (store : List M) (h : Heap) (fref : Nat)
    (desc : Bool) (B : Int) (cb : Nat → M → Bool × Option ε)
    (hs : store.Pairwise (fun a b => strLtB (idStr a) (idStr b) = true))
    (hids : ∀ d ∈ store, ∃ s, M.get d "_id" = some (.str s) ∧ s ≠ "")
    (hf : hget h fref = []) :
    ∃ out hh, ModelListByCursor store h fref desc B cb = some (out, hh) ∧
      out.calls = (seqRun cb 0 (sortDir desc store)).calls ∧
      out.err = (seqRun cb 0 (sortDir desc store)).err ∧
      out.queries ≤ store.length / (if B < 1 then 100 else B.toNat) + 1 := by
  have hentry : ModelListByCursor store h fref desc B cb =
      cursorLoopH store cb desc (if B < 1 then 100 else B.toNat) (store.length + 3)
        (h ++ [([] : M)]) h.length 0 := by
    rw [ModelListByCursor, hf]
    rfl
  have hlim : 1 ≤ (if B < 1 then 100 else B.toNat) := by
    by_cases hb : B < 1
    · rw [if_pos hb]; omega
    · rw [if_neg hb]; omega
  have hfilter : store.filter (docMatches (fltOf desc none)) = store :=
    List.filter_eq_self.mpr (fun a _ => rfl)
  obtain ⟨out, hh, hres, hcalls, herr, hq⟩ :=
    cursorLoopH_master store cb desc _ hlim hs hids (store.length + 3)
      (h ++ [([] : M)]) h.length 0 none (sortDir desc store)
      (by simp) (hget_alloc h) (by rw [hfilter])
      (by rw [sortDir_length]; omega)
  exact ⟨out, hh, by rw [hentry]; exact hres, hcalls, herr,
    by rw [sortDir_length] at hq; exact hq⟩

/-- C1 counterexample: two documents with the unique, monotonically
increasing string ids `""` and `"a"`, batch size `B = 1 < N = 2`, and a
callback always returning `(true, nil)`. Ascending iteration stops after
the first batch because the sentinel `last == ""` ends the loop, so the
callback runs once, not `N = 2` times. -/
theorem cursor_iteration_counterexample :
    (ModelListByCursor
      [[("_id", .str ""), ("n", .str "1")], [("_id", .str "a"), ("n", .str "2")]]
      [[]] 0 false 1 (fun _ _ => (true, (none : Option Unit)))).map
        (fun p => p.1.calls.length) = some 1 ∧ (1 : Nat) ≠ 2 := by
  exact ⟨rfl, by omega⟩

/-- C1 amended: with unique, monotonically increasing, NONEMPTY string
`_id` values (the empty string collides with the loop's `last == ""`
termination sentinel, see the counterexample) and `B < N`,
`ListByCursor` with `desc = false` (and `List`) invokes the callback
exactly `N` times, once per document in ascending `_id` order, and
`ListDescending` (and `ListByCursor` with `desc = true`) once per
document in descending order, when the callback always returns
`(true, nil)`; all with a nil resulting error. -/
theorem cursor_iteration_complete {ε : Type} (store : List M) (h : Heap) (fref : Nat)
    (B : Int) (cb : Nat → M → Bool × Option ε)
    (hs : store.Pairwise (fun a b => strLtB (idStr a) (idStr b) = true))
    (hids : ∀ d ∈ store, ∃ s, M.get d "_id" = some (.str s) ∧ s ≠ "")
    (hB : B < (store.length : Int))
    (hf : hget h fref = [])
    (hcb : ∀ k d, cb k d = (true, none)) :
    (∃ out hh, ModelListByCursor store h fref false B cb = some (out, hh) ∧
      out.calls = store ∧ out.err = none) ∧
    (∃ out hh, ModelListByCursor store h fref true B cb = some (out, hh) ∧
      out.calls = store.reverse ∧ out.err = none) ∧
    (∃ out hh, ModelList store h fref cb = some (out, hh) ∧
      out.calls = store ∧ out.err = none) ∧
    (∃ out hh, ModelListDescending store h fref cb = some (out, hh) ∧
      out.calls = store.reverse ∧ out.err = none) := by
  have hseq : ∀ desc : Bool, seqRun cb 0 (sortDir desc store) =
      ⟨sortDir desc store, none, false⟩ := fun desc => seqRun_all_true cb hcb _ 0
  refine ⟨?_, ?_, ?_, ?_⟩
  · obtain ⟨out, hh, hres, hcalls, herr, _⟩ :=
      ModelListByCursor_run store h fref false B cb hs hids hf
    exact ⟨out, hh, hres, by rw [hcalls, hseq false]; simp [sortDir], by rw [herr, hseq false]⟩
  · obtain ⟨out, hh, hres, hcalls, herr, _⟩ :=
      ModelListByCursor_run store h fref true B cb hs hids hf
    exact ⟨out, hh, hres, by rw [hcalls, hseq true]; simp [sortDir], by rw [herr, hseq true]⟩
  · obtain ⟨out, hh, hres, hcalls, herr, _⟩ :=
      ModelListByCursor_run store h fref false defaultListLimit cb hs hids hf
    exact ⟨out, hh, hres, by rw [hcalls, hseq false]; simp [sortDir], by rw [herr, hseq false]⟩
  · obtain ⟨out, hh, hres, hcalls, herr, _⟩ :=
      ModelListByCursor_run store h fref true defaultListLimit cb hs hids hf
    exact ⟨out, hh, hres, by rw [hcalls, hseq true]; simp [sortDir], by rw [herr, hseq true]⟩

/-- Witness for C1 amended at a three-document store with batch size 1. -/
theorem cursor_iteration_complete_witness :
    ∃ out hh, ModelListByCursor
      [[("_id", .str "a")], [("_id", .str "b")], [("_id", .str "c")]]
      [[]] 0 false 1 (fun _ _ => (true, (none : Option Unit))) = some (out, hh) ∧
      out.calls = [[("_id", .str "a")], [("_id", .str "b")], [("_id", .str "c")]] ∧
      out.err = none := by
  refine (cursor_iteration_complete
    [[("_id", .str "a")], [("_id", .str "b")], [("_id", .str "c")]]
    [[]] 0 1 (fun _ _ => (true, (none : Option Unit))) ?_ ?_ ?_ ?_ ?_).1
  · exact List.Pairwise.cons (by intro b hb; fin_cases hb <;> rfl)
      (List.Pairwise.cons (by intro b hb; fin_cases hb <;> rfl)
        (List.pairwise_singleton _ _))
  · intro d hd
    fin_cases hd
    · exact ⟨"a", rfl, by decide⟩
    · exact ⟨"b", rfl, by decide⟩
    · exact ⟨"c", rfl, by decide⟩
  · norm_num
  · rfl
  · intro k d; rfl

/-! ## Claim C5: early stop and error propagation -/

/-- Batch behavior of a callback that continues below invocation index
`K - 1` and cleanly stops at index `K - 1`. -/
theorem runBatch_stopK {ε : Type} (cb : Nat → M → Bool × Option ε) (K : Nat) (hK : 1 ≤ K)
    (hcont : ∀ k d, k < K - 1 → cb k d = (true, none))
    (hstopK : ∀ d, cb (K - 1) d = (false, none)) :
    ∀ (batch : List M) (k : Nat) (last0 : String) (c0 : Nat), k ≤ K - 1 →
      ((runBatch cb batch k last0 c0).stop = none ∨
        (runBatch cb batch k last0 c0).stop = some none) ∧
      k + (runBatch cb batch k last0 c0).calls.length ≤ K ∧
      ((runBatch cb batch k last0 c0).stop = none → k + batch.length ≤ K - 1) := by
  intro batch
  induction batch with
  | nil =>
    intro k last0 c0 hk
    exact ⟨Or.inl rfl, by simp [runBatch]; omega, fun _ => by simpa using hk⟩
  | cons d ds ih =>
    intro k last0 c0 hk
    by_cases hkK : k = K - 1
    · subst hkK
      have hsome : ((cb (K - 1) d).2.isSome || !(cb (K - 1) d).1) = true := by
        rw [hstopK d]
        rfl
      rw [runBatch, if_pos hsome]
      refine ⟨Or.inr ?_, ?_, fun hh => ?_⟩
      · show some (cb (K - 1) d).2 = some none
        rw [hstopK d]
      · show K - 1 + [d].length ≤ K
        simp only [List.length_singleton]
        omega
      · exact Option.noConfusion hh
    · have hklt : k < K - 1 := by omega
      have hcb := hcont k d hklt
      rw [runBatch, hcb]
      simp only [Option.isSome_none, Bool.not_true, Bool.or_self, Bool.false_eq_true, if_false]
      obtain ⟨h1, h2, h3⟩ := ih (k + 1) _ (c0 + 1) (by omega)
      refine ⟨h1, ?_, fun hh => ?_⟩
      · simp only [List.length_cons]
        omega
      · have := h3 hh
        simp only [List.length_cons]
        omega

/-- Loop behavior for the cleanly stopping callback: the loop never
produces an error and performs at most `K` callback invocations. -/
theorem cursorLoopH_stopK {ε : Type} (store : List M) (cb : Nat → M → Bool × Option ε)
    (desc : Bool) (limit : Nat) (K : Nat) (hK : 1 ≤ K)
    (hcont : ∀ k d, k < K - 1 → cb k d = (true, none))
    (hstopK : ∀ d, cb (K - 1) d = (false, none)) :
    ∀ (fuel : Nat) (h : Heap) (nref k : Nat) (out : CursorOutcome ε) (hh : Heap),
      k ≤ K - 1 →
      cursorLoopH store cb desc limit fuel h nref k = some (out, hh) →
      out.err = none ∧ k + out.calls.length ≤ K := by
  intro fuel
  induction fuel with
  | zero => intro h nref k out hh _ hres; simp [cursorLoopH] at hres
  | succ n ih =>
    intro h nref k out hh hk hres
    rw [cursorLoopH_succ] at hres
    obtain ⟨hb1, hb2, hb3⟩ := runBatch_stopK cb K hK hcont hstopK
      (findDocs store (hget h nref) desc limit) k "" 0 hk
    rcases hstop : (runBatch cb (findDocs store (hget h nref) desc limit) k "" 0).stop
      with _ | e
    · rw [hstop] at hres
      simp only at hres
      split at hres
      · cases hres
        exact ⟨rfl, hb2⟩
      · split at hres
        · cases hres
        · rename_i o2 h2 heq
          cases hres
          obtain ⟨hcout, hkk⟩ := runBatch_continue cb _ k "" 0 hstop
          obtain ⟨herr2, hlen2⟩ := ih _ _ _ _ _ (by
            rw [hkk]
            have := hb3 hstop
            omega) heq
          obtain ⟨hc1, _, hc3⟩ := runBatch_seq cb
            (findDocs store (hget h nref) desc limit) k "" 0
          have hnstop : (seqRun cb k (findDocs store (hget h nref) desc limit)).stopped
              = false := by
            rw [← hc3, hstop]
            rfl
          obtain ⟨hsc, _⟩ := seqRun_not_stopped cb _ k hnstop
          refine ⟨herr2, ?_⟩
          simp only [List.length_append]
          rw [hc1, hsc] at hb2 ⊢
          have := hb3 hstop
          rw [hkk] at hlen2
          omega
    · rw [hstop] at hres
      simp only at hres
      cases hres
      have he : e = none := by
        rcases hb1 with hb | hb
        · rw [hstop] at hb; cases hb
        · rw [hstop] at hb
          exact Option.some.inj hb
      subst he
      exact ⟨rfl, hb2⟩

/-- Batch behavior of a callback that continues below index `K - 1` and
returns the error `e` at index `K - 1`. -/
theorem runBatch_errK {ε : Type} (cb : Nat → M → Bool × Option ε) (K : Nat) (e : ε)
    (hK : 1 ≤ K)
    (hcont : ∀ k d, k < K - 1 → cb k d = (true, none))
    (herrK : ∀ d, (cb (K - 1) d).2 = some e) :
    ∀ (batch : List M) (k : Nat) (last0 : String) (c0 : Nat), k ≤ K - 1 →
      ((runBatch cb batch k last0 c0).stop = none ∨
        (runBatch cb batch k last0 c0).stop = some (some e)) ∧
      ((runBatch cb batch k last0 c0).stop = none → k + batch.length ≤ K - 1 ∧
        (runBatch cb batch k last0 c0).calls = batch) ∧
      ((runBatch cb batch k last0 c0).stop = some (some e) →
        k + (runBatch cb batch k last0 c0).calls.length = K) := by
  intro batch
  induction batch with
  | nil =>
    intro k last0 c0 hk
    exact ⟨Or.inl rfl, fun _ => ⟨by simpa using hk, rfl⟩, fun hh => by cases hh⟩
  | cons d ds ih =>
    intro k last0 c0 hk
    by_cases hkK : k = K - 1
    · subst hkK
      have hcb := herrK d
      have hsome : ((cb (K - 1) d).2.isSome || !(cb (K - 1) d).1) = true := by
        rw [hcb]
        rfl
      rw [runBatch, if_pos hsome]
      refine ⟨Or.inr ?_, fun hh => ?_, fun _ => ?_⟩
      · show some (cb (K - 1) d).2 = some (some e)
        rw [hcb]
      · exact Option.noConfusion hh
      · show K - 1 + [d].length = K
        simp only [List.length_singleton]
        omega
    · have hklt : k < K - 1 := by omega
      have hcb := hcont k d hklt
      rw [runBatch, hcb]
      simp only [Option.isSome_none, Bool.not_true, Bool.or_self, Bool.false_eq_true, if_false]
      obtain ⟨h1, h2, h3⟩ := ih (k + 1) _ (c0 + 1) (by omega)
      refine ⟨h1, fun hh => ?_, fun hh => ?_⟩
      · obtain ⟨ha, hb⟩ := h2 hh
        constructor
        · simp only [List.length_cons]
          omega
        · simp only [hb]
      · have := h3 hh
        simp only [List.length_cons]
        omega

/-- Loop behavior for the erroring callback: either the error `e` is
returned verbatim after exactly `K` invocations, or the documents ran
out earlier with no error. -/
theorem cursorLoopH_errK {ε : Type} (store : List M) (cb : Nat → M → Bool × Option ε)
    (desc : Bool) (limit : Nat) (K : Nat) (e : ε) (hK : 1 ≤ K)
    (hcont : ∀ k d, k < K - 1 → cb k d = (true, none))
    (herrK : ∀ d, (cb (K - 1) d).2 = some e) :
    ∀ (fuel : Nat) (h : Heap) (nref k : Nat) (out : CursorOutcome ε) (hh : Heap),
      k ≤ K - 1 →
      cursorLoopH store cb desc limit fuel h nref k = some (out, hh) →
      (out.err = some e ∧ k + out.calls.length = K) ∨
      (out.err = none ∧ k + out.calls.length ≤ K - 1) := by
  intro fuel
  induction fuel with
  | zero => intro h nref k out hh _ hres; simp [cursorLoopH] at hres
  | succ n ih =>
    intro h nref k out hh hk hres
    rw [cursorLoopH_succ] at hres
    obtain ⟨hb1, hb2, hb3⟩ := runBatch_errK cb K e hK hcont herrK
      (findDocs store (hget h nref) desc limit) k "" 0 hk
    rcases hstop : (runBatch cb (findDocs store (hget h nref) desc limit) k "" 0).stop
      with _ | e2
    · rw [hstop] at hres
      simp only at hres
      obtain ⟨hlen, hcalls⟩ := hb2 hstop
      split at hres
      · cases hres
        refine Or.inr ⟨rfl, ?_⟩
        rw [hcalls]
        exact hlen
      · split at hres
        · cases hres
        · rename_i o2 h2 heq
          cases hres
          obtain ⟨_, hkk⟩ := runBatch_continue cb _ k "" 0 hstop
          rcases ih _ _ _ _ _ (by rw [hkk]; omega) heq with ⟨he2, hl2⟩ | ⟨he2, hl2⟩
          · refine Or.inl ⟨he2, ?_⟩
            simp only [List.length_append]
            rw [hcalls]
            rw [hkk] at hl2
            omega
          · refine Or.inr ⟨he2, ?_⟩
            simp only [List.length_append]
            rw [hcalls]
            rw [hkk] at hl2
            omega
    · rw [hstop] at hres
      simp only at hres
      cases hres
      have he : e2 = some e := by
        rcases hb1 with hb | hb
        · rw [hstop] at hb; cases hb
        · rw [hstop] at hb
          exact Option.some.inj hb
      subst he
      exact Or.inl ⟨rfl, hb3 hstop⟩

theorem ModelListByCursor_eq {ε : Type} (store : List M) (h : Heap) (fref : Nat)
    (desc : Bool) (limit : Int) (cb : Nat → M → Bool × Option ε) :
    ModelListByCursor store h fref desc limit cb =
      cursorLoopH store cb desc (if limit < 1 then 100 else limit.toNat) (store.length + 3)
        ((hget h fref).foldl (fun hh kv => mapWrite hh h.length kv.1 kv.2) (h ++ [([] : M)]))
        h.length 0 := rfl

/-- C5: early stop and error propagation. For every `ListByCursor`
invocation (hence also `List` and `ListDescending`, which are
`ListByCursor` with fixed direction and batch size): a callback that
returns `(false, nil)` on its `K`-th invocation makes iteration finish
with a nil error after at most `K` callback invocations (so it is never
invoked again); a callback that returns a non-nil error `e` on its
`K`-th invocation makes iteration finish after at most `K` invocations,
returning exactly `e` when the `K`-th invocation was reached and nil if
the documents ran out first. -/
theorem cursor_early_stop_and_error :
    (∀ (ε : Type) (store : List M) (h : Heap) (fref : Nat) (desc : Bool) (limit : Int)
       (K : Nat) (cb : Nat → M → Bool × Option ε) (out : CursorOutcome ε) (hh : Heap),
      1 ≤ K →
      (∀ k d, k < K - 1 → cb k d = (true, none)) →
      (∀ d, cb (K - 1) d = (false, none)) →
      ModelListByCursor store h fref desc limit cb = some (out, hh) →
      out.err = none ∧ out.calls.length ≤ K) ∧
    (∀ (ε : Type) (store : List M) (h : Heap) (fref : Nat) (desc : Bool) (limit : Int)
       (K : Nat) (e : ε) (cb : Nat → M → Bool × Option ε) (out : CursorOutcome ε) (hh : Heap),
      1 ≤ K →
      (∀ k d, k < K - 1 → cb k d = (true, none)) →
      (∀ d, (cb (K - 1) d).2 = some e) →
      ModelListByCursor store h fref desc limit cb = some (out, hh) →
      out.calls.length ≤ K ∧ (out.calls.length = K → out.err = some e) ∧
        (out.calls.length < K → out.err = none)) := by
  constructor
  · intro ε store h fref desc limit K cb out hh hK hcont hstopK hres
    rw [ModelListByCursor_eq] at hres
    obtain ⟨herr, hlen⟩ := cursorLoopH_stopK store cb desc _ K hK hcont hstopK
      _ _ _ _ _ _ (by omega) hres
    exact ⟨herr, by omega⟩
  · intro ε store h fref desc limit K e cb out hh hK hcont herrK hres
    rw [ModelListByCursor_eq] at hres
    rcases cursorLoopH_errK store cb desc _ K e hK hcont herrK
        _ _ _ _ _ _ (by omega) hres with ⟨he, hl⟩ | ⟨he, hl⟩
    · refine ⟨by omega, fun _ => he, fun hlt => ?_⟩
      omega
    · refine ⟨by omega, fun heq => ?_, fun _ => he⟩
      omega

/-- Witness for C5: a callback stopping cleanly on its 2nd invocation
over a 3-document store with batch size 2 makes exactly 2 calls and no
error. -/
theorem cursor_early_stop_and_error_witness :
    ({ calls := [[("_id", .str "a")], [("_id", .str "b")]], err := none, queries := 1 } :
      CursorOutcome Unit).err = none ∧
    ({ calls := [[("_id", .str "a")], [("_id", .str "b")]], err := none, queries := 1 } :
      CursorOutcome Unit).calls.length ≤ 2 := by
  refine cursor_early_stop_and_error.1 Unit
    [[("_id", .str "a")], [("_id", .str "b")], [("_id", .str "c")]] [[]] 0 false 2 2
    (fun k _ => if k = 1 then (false, none) else (true, (none : Option Unit)))
    ⟨[[("_id", .str "a")], [("_id", .str "b")]], none, 1⟩ [[], []]
    (by omega) ?_ ?_ rfl
  · intro k d hk
    have hk0 : k = 0 := by omega
    subst hk0
    rfl
  · intro d
    rfl

/-! ## General termination of the cursor loop on arbitrary stores -/

theorem M.set_set (m : M) (k : String) (v₁ v₂ : BVal) :
    M.set (M.set m k v₁) k v₂ = M.set m k v₂ := by
  induction m with
  | nil =>
    show M.set [(k, v₁)] k v₂ = [(k, v₂)]
    rw [M.set, if_pos rfl]
  | cons p rest ih =>
    obtain ⟨a, b⟩ := p
    by_cases hak : a = k
    · have h1 : M.set ((a, b) :: rest) k v₁ = (k, v₁) :: rest := by
        rw [M.set, if_pos hak]
      rw [h1, M.set, if_pos rfl, M.set, if_pos hak]
    · have h1 : M.set ((a, b) :: rest) k v₁ = (a, b) :: M.set rest k v₁ := by
        rw [M.set, if_neg hak]
      rw [h1, M.set, if_neg hak, M.set, if_neg hak, ih]

theorem M.mem_set_self (m : M) (k : String) (v : BVal) : (k, v) ∈ M.set m k v := by
  induction m with
  | nil => simp [M.set]
  | cons p rest ih =>
    obtain ⟨a, b⟩ := p
    by_cases hak : a = k
    · subst hak
      rw [M.set, if_pos rfl]
      simp
    · rw [M.set, if_neg hak]
      simp [ih]

/-- A document matching a filter with a `k`-entry satisfies that entry. -/
theorem docMatches_set_implies (m : M) (key : String) (c : BVal) (d : M)
    (h : docMatches (M.set m key c) d = true) : matchCond c (M.get d key) = true := by
  rw [docMatches, List.all_eq_true] at h
  exact h (key, c) (M.mem_set_self m key c)

/-- Matching is antitone in a pointwise-stronger condition at one key. -/
theorem docMatches_set_mono (m : M) (key : String) (c₁ c₂ : BVal)
    (himp : ∀ v, matchCond c₂ v = true → matchCond c₁ v = true) :
    ∀ d, docMatches (M.set m key c₂) d = true → docMatches (M.set m key c₁) d = true := by
  induction m with
  | nil =>
    intro d h
    rw [M.set] at h ⊢
    simp only [docMatches, List.all_cons, List.all_nil, Bool.and_true] at h ⊢
    exact himp _ h
  | cons p rest ih =>
    obtain ⟨a, b⟩ := p
    intro d h
    by_cases hak : a = key
    · subst hak
      rw [M.set, if_pos rfl] at h ⊢
      simp only [docMatches, List.all_cons, Bool.and_eq_true] at h ⊢
      exact ⟨himp _ h.1, h.2⟩
    · rw [M.set, if_neg hak] at h ⊢
      simp only [docMatches, List.all_cons, Bool.and_eq_true] at h ⊢
      exact ⟨h.1, ih d (by simpa [docMatches] using h.2)⟩

/-- The `{$gt|$lt}` clause is antitone along the direction order. -/
theorem gtClause_mono (desc : Bool) (a b : String)
    (hab : (if desc then strLtB b a else strLtB a b) = true) :
    ∀ v, matchCond (gtClause desc b) v = true → matchCond (gtClause desc a) v = true := by
  intro v h
  cases desc with
  | false =>
    simp only [Bool.false_eq_true, if_false] at hab
    rcases v with _ | (s | fs)
    · simp +decide [matchCond, gtClause, matchOp, isOpKey] at h
    · simp +decide [matchCond, gtClause, matchOp, isOpKey] at h ⊢
      exact strLtB_trans _ _ _ hab h
    · simp +decide [matchCond, gtClause, matchOp, isOpKey] at h
  | true =>
    simp only [if_true] at hab
    rcases v with _ | (s | fs)
    · simp +decide [matchCond, gtClause, matchOp, isOpKey] at h
    · simp +decide [matchCond, gtClause, matchOp, isOpKey] at h ⊢
      exact strLtB_trans _ _ _ h hab
    · simp +decide [matchCond, gtClause, matchOp, isOpKey] at h

theorem sortInsert_mem (le : M → M → Bool) (y : M) (l : List M) (x : M)
    (hx : x ∈ sortInsert le y l) : x = y ∨ x ∈ l := by
  induction l with
  | nil => simpa [sortInsert] using hx
  | cons a as ih =>
    rw [sortInsert] at hx
    by_cases hle : le y a = true
    · rw [if_pos hle] at hx
      simpa using hx
    · rw [if_neg hle] at hx
      rcases List.mem_cons.mp hx with h | h
      · exact Or.inr (h ▸ List.mem_cons_self a as)
      · rcases ih h with h2 | h2
        · exact Or.inl h2
        · exact Or.inr (List.mem_cons_of_mem a h2)

theorem sortByLe_mem (le : M → M → Bool) (l : List M) (x : M)
    (hx : x ∈ sortByLe le l) : x ∈ l := by
  induction l with
  | nil => simpa [sortByLe] using hx
  | cons a as ih =>
    rw [sortByLe] at hx
    rcases sortInsert_mem le a _ x hx with h | h
    · exact h ▸ List.mem_cons_self a as
    · exact List.mem_cons_of_mem a (ih h)

/-- Every document a `ListByCursor` batch query returns is a stored
document matching the filter. -/
theorem findDocs_mem (store : List M) (flt : M) (desc : Bool) (limit : Nat) (x : M)
    (hx : x ∈ findDocs store flt desc limit) :
    x ∈ store ∧ docMatches flt x = true := by
  simp only [findDocs, findWithSort] at hx
  have h1 : x ∈ sortByLe (keyLe "_id" desc) (store.filter (docMatches flt)) :=
    List.mem_of_mem_take hx
  have h2 : x ∈ store.filter (docMatches flt) := sortByLe_mem _ _ _ h1
  exact ⟨List.mem_of_mem_filter h2, List.of_mem_filter h2⟩

/-- The `last` local after a batch is the incoming value, the empty
string, or the string id of some document of the batch. -/
theorem runBatch_last_mem {ε : Type} (cb : Nat → M → Bool × Option ε) :
    ∀ (ds : List M) (k : Nat) (last0 : String) (c0 : Nat),
      (runBatch cb ds k last0 c0).last = last0 ∨
      (runBatch cb ds k last0 c0).last = "" ∨
      ∃ d ∈ ds, M.get d "_id" = some (.str (runBatch cb ds k last0 c0).last) := by
  intro ds
  induction ds with
  | nil => intro k last0 c0; left; rfl
  | cons d ds ih =>
    intro k last0 c0
    rw [runBatch]
    by_cases hs : ((cb k d).2.isSome || !(cb k d).1) = true
    · rw [if_pos hs]
      left
      rfl
    · rw [Bool.not_eq_true] at hs
      simp only [hs, Bool.false_eq_true, if_false]
      rcases hid : M.get d "_id" with _ | v
      · simp only [hid]
        rcases ih (k + 1) last0 (c0 + 1) with h | h | ⟨e, he, hee⟩
        · left; exact h
        · right; left; exact h
        · right; right; exact ⟨e, List.mem_cons_of_mem d he, hee⟩
      · rcases v with s | fs
        · simp only [hid]
          rcases ih (k + 1) s (c0 + 1) with h | h | ⟨e, he, hee⟩
          · right; right
            exact ⟨d, List.mem_cons_self d ds, by rw [hid, h]⟩
          · right; left; exact h
          · right; right; exact ⟨e, List.mem_cons_of_mem d he, hee⟩
        · simp only [hid]
          rcases ih (k + 1) "" (c0 + 1) with h | h | ⟨e, he, hee⟩
          · right; left; exact h
          · right; left; exact h
          · right; right; exact ⟨e, List.mem_cons_of_mem d he, hee⟩

/-- A pointwise-stronger predicate with a separating element filters to a
strictly shorter list. -/
theorem filter_length_lt (p q : M → Bool) (l : List M)
    (himp : ∀ d, p d = true → q d = true) (x : M) (hx : x ∈ l)
    (hqx : q x = true) (hpx : p x = false) :
    (l.filter p).length < (l.filter q).length := by
  have h1 : l.filter p = (l.filter q).filter p := by
    rw [List.filter_filter]
    refine (List.filter_congr ?_).symm
    intro d _
    cases hp : p d with
    | false => simp
    | true => simp [himp d hp]
  rw [h1]
  refine List.length_filter_lt_length_iff_exists.mpr ?_
  exact ⟨x, List.mem_filter.mpr ⟨hx, hqx⟩, by simp [hpx]⟩

theorem mapWrite_length (h : Heap) (r : Nat) (k : String) (v : BVal) :
    (mapWrite h r k v).length = h.length := by
  simp [mapWrite, hset]

theorem copyFold_length (l : M) (r : Nat) :
    ∀ hh : Heap, (l.foldl (fun acc kv => mapWrite acc r kv.1 kv.2) hh).length = hh.length := by
  induction l with
  | nil => intro hh; rfl
  | cons kv l ih =>
    intro hh
    rw [List.foldl_cons, ih]
    exact mapWrite_length hh r kv.1 kv.2

/-- Evaluating the `{$gt|$lt}` clause on a string value. -/
theorem matchCond_gtClause_str (desc : Bool) (b s : String) :
    matchCond (gtClause desc b) (some (.str s)) =
      (if desc then strLtB s b else strLtB b s) := by
  cases desc <;> simp +decide [matchCond, gtClause, matchOp, isOpKey]

/-- General termination of the cursor loop: whatever the store, callback
and batch size, once the private filter has the `{_id: {$gt|$lt: last}}`
shape over some base map, the loop finishes within any fuel exceeding
the number of currently-matched documents, issuing at most `fuel`
queries — each full batch strictly shrinks the matched set, because the
batch's last id strictly advances along the direction order. -/
theorem cursorLoopH_total {ε : Type} (store : List M) (cb : Nat → M → Bool × Option ε)
    (desc : Bool) (limit : Nat) :
    ∀ (fuel : Nat) (h : Heap) (nref k : Nat) (base : M) (lastp : String),
      nref < h.length →
      hget h nref = M.set base "_id" (gtClause desc lastp) →
      (store.filter (docMatches (hget h nref))).length < fuel →
      ∃ out hh, cursorLoopH store cb desc limit fuel h nref k = some (out, hh) ∧
        out.queries ≤ fuel := by
  intro fuel
  induction fuel with
  | zero => intro h nref k base lastp _ _ hlt; omega
  | succ n ih =>
    intro h nref k base lastp hnref hshape hlt
    rw [cursorLoopH_succ]
    rcases hstop : (runBatch cb (findDocs store (hget h nref) desc limit) k "" 0).stop with _ | e
    · -- the batch was fully consumed without the callback stopping
      by_cases hcond : ((runBatch cb (findDocs store (hget h nref) desc limit) k "" 0).last = "" ||
          decide ((runBatch cb (findDocs store (hget h nref) desc limit) k "" 0).couter
            < limit)) = true
      · refine ⟨⟨(runBatch cb (findDocs store (hget h nref) desc limit) k "" 0).calls,
          none, 1⟩, h, ?_, ?_⟩
        · simp [hstop, hcond]
        · show (1 : Nat) ≤ n + 1
          omega
      · -- full batch with a nonempty last id: the loop re-queries
        have hlastne : (runBatch cb (findDocs store (hget h nref) desc limit) k "" 0).last
            ≠ "" := by
          intro hh
          apply hcond
          simp [hh]
        rcases runBatch_last_mem cb (findDocs store (hget h nref) desc limit) k "" 0 with
          h0 | h0 | ⟨x, hxb, hxid⟩
        · exact absurd h0 hlastne
        · exact absurd h0 hlastne
        obtain ⟨hxstore, hxm0⟩ := findDocs_mem store (hget h nref) desc limit x hxb
        have hxm : docMatches (M.set base "_id" (gtClause desc lastp)) x = true := by
          rw [← hshape]
          exact hxm0
        have hadv : (if desc then
            strLtB (runBatch cb (findDocs store (hget h nref) desc limit) k "" 0).last lastp
          else
            strLtB lastp (runBatch cb (findDocs store (hget h nref) desc limit) k "" 0).last)
            = true := by
          have h2 := docMatches_set_implies base "_id" (gtClause desc lastp) x hxm
          rw [hxid, matchCond_gtClause_str] at h2
          exact h2
        have himp := gtClause_mono desc lastp
          (runBatch cb (findDocs store (hget h nref) desc limit) k "" 0).last hadv
        have hmono := docMatches_set_mono base "_id" (gtClause desc lastp)
          (gtClause desc (runBatch cb (findDocs store (hget h nref) desc limit) k "" 0).last)
          himp
        have hpx : docMatches (M.set base "_id" (gtClause desc
            (runBatch cb (findDocs store (hget h nref) desc limit) k "" 0).last)) x = false := by
          cases hval : docMatches (M.set base "_id" (gtClause desc
              (runBatch cb (findDocs store (hget h nref) desc limit) k "" 0).last)) x with
          | false => rfl
          | true =>
            exfalso
            have h2 := docMatches_set_implies base "_id" _ x hval
            rw [hxid, matchCond_gtClause_str] at h2
            cases desc with
            | false =>
              rw [if_neg (by simp)] at h2
              rw [strLtB_irrefl] at h2
              cases h2
            | true =>
              rw [if_pos rfl] at h2
              rw [strLtB_irrefl] at h2
              cases h2
        have hdec : (store.filter (docMatches (M.set base "_id" (gtClause desc
            (runBatch cb (findDocs store (hget h nref) desc limit) k "" 0).last)))).length <
            (store.filter (docMatches (hget h nref))).length :=
          filter_length_lt _ _ store (fun d hd => hshape.symm ▸ hmono d hd) x hxstore hxm0 hpx
        have hg1 : hget (mapWrite h nref "_id" (gtClause desc
            (runBatch cb (findDocs store (hget h nref) desc limit) k "" 0).last)) nref =
            M.set base "_id" (gtClause desc
              (runBatch cb (findDocs store (hget h nref) desc limit) k "" 0).last) := by
          rw [hget_mapWrite_self _ _ _ _ hnref, hshape, M.set_set]
        have hnref2 : nref < (mapWrite h nref "_id" (gtClause desc
            (runBatch cb (findDocs store (hget h nref) desc limit) k "" 0).last)).length := by
          rw [mapWrite_length]
          exact hnref
        have hlt2 : (store.filter (docMatches (hget (mapWrite h nref "_id" (gtClause desc
            (runBatch cb (findDocs store (hget h nref) desc limit) k "" 0).last)) nref))).length
            < n := by
          rw [hg1]
          omega
        obtain ⟨o, h2h, ho, hoq⟩ := ih
          (mapWrite h nref "_id" (gtClause desc
            (runBatch cb (findDocs store (hget h nref) desc limit) k "" 0).last))
          nref ((runBatch cb (findDocs store (hget h nref) desc limit) k "" 0).k) base
          ((runBatch cb (findDocs store (hget h nref) desc limit) k "" 0).last)
          hnref2 hg1 hlt2
        have hcondf : ((runBatch cb (findDocs store (hget h nref) desc limit) k "" 0).last = "" ||
            decide ((runBatch cb (findDocs store (hget h nref) desc limit) k "" 0).couter
              < limit)) = false := by
          rw [← Bool.not_eq_true]
          exact hcond
        refine ⟨⟨(runBatch cb (findDocs store (hget h nref) desc limit) k "" 0).calls ++ o.calls,
          o.err, o.queries + 1⟩, h2h, ?_, ?_⟩
        · simp only [hstop, hcondf, Bool.false_eq_true, if_false]
          rw [ho]
        · show o.queries + 1 ≤ n + 1
          omega
    · -- the callback stopped (or errored) inside the batch
      refine ⟨⟨(runBatch cb (findDocs store (hget h nref) desc limit) k "" 0).calls,
        e, 1⟩, h, ?_, ?_⟩
      · simp only [hstop]
      · show (1 : Nat) ≤ n + 1
        omega

/-- `ListByCursor` terminates on every finite store: whatever the caller
filter, direction, batch size and callback, the run completes within the
model's fuel, issuing at most `store.length + 3` queries. -/
theorem ModelListByCursor_total {ε : Type} (store : List M) (h : Heap) (fref : Nat)
    (desc : Bool) (B : Int) (cb : Nat → M → Bool × Option ε) :
    ∃ out hh, ModelListByCursor store h fref desc B cb = some (out, hh) ∧
      out.queries ≤ store.length + 3 := by
  have hentry : ModelListByCursor store h fref desc B cb =
      cursorLoopH store cb desc (if B < 1 then 100 else B.toNat) (store.length + 2 + 1)
        ((hget h fref).foldl (fun hh kv => mapWrite hh h.length kv.1 kv.2) (h ++ [([] : M)]))
        h.length 0 := by
    rw [ModelListByCursor]
    rfl
  rw [hentry, cursorLoopH_succ]
  set lim : Nat := if B < 1 then 100 else B.toNat
  set h2 : Heap :=
    (hget h fref).foldl (fun hh kv => mapWrite hh h.length kv.1 kv.2) (h ++ [([] : M)])
  have hlen2 : h2.length = h.length + 1 := by
    rw [copyFold_length]
    simp
  have hnref2 : h.length < h2.length := by omega
  rcases hstop : (runBatch cb (findDocs store (hget h2 h.length) desc lim) 0 "" 0).stop
    with _ | e
  · by_cases hcond : ((runBatch cb (findDocs store (hget h2 h.length) desc lim) 0 "" 0).last = ""
        || decide ((runBatch cb (findDocs store (hget h2 h.length) desc lim) 0 "" 0).couter
          < lim)) = true
    · refine ⟨⟨(runBatch cb (findDocs store (hget h2 h.length) desc lim) 0 "" 0).calls,
        none, 1⟩, h2, ?_, ?_⟩
      · simp [hstop, hcond]
      · show (1 : Nat) ≤ store.length + 3
        omega
    · have hg1 : hget (mapWrite h2 h.length "_id" (gtClause desc
          (runBatch cb (findDocs store (hget h2 h.length) desc lim) 0 "" 0).last)) h.length =
          M.set (hget h2 h.length) "_id" (gtClause desc
            (runBatch cb (findDocs store (hget h2 h.length) desc lim) 0 "" 0).last) :=
        hget_mapWrite_self _ _ _ _ hnref2
      have hnref3 : h.length < (mapWrite h2 h.length "_id" (gtClause desc
          (runBatch cb (findDocs store (hget h2 h.length) desc lim) 0 "" 0).last)).length := by
        rw [mapWrite_length]
        exact hnref2
      have hlt3 : (store.filter (docMatches (hget (mapWrite h2 h.length "_id" (gtClause desc
          (runBatch cb (findDocs store (hget h2 h.length) desc lim) 0 "" 0).last))
            h.length))).length < store.length + 2 := by
        rw [hg1]
        have := List.length_filter_le (docMatches (M.set (hget h2 h.length) "_id" (gtClause desc
          (runBatch cb (findDocs store (hget h2 h.length) desc lim) 0 "" 0).last))) store
        omega
      obtain ⟨o, hh, ho, hoq⟩ := cursorLoopH_total store cb desc lim (store.length + 2)
        (mapWrite h2 h.length "_id" (gtClause desc
          (runBatch cb (findDocs store (hget h2 h.length) desc lim) 0 "" 0).last))
        h.length ((runBatch cb (findDocs store (hget h2 h.length) desc lim) 0 "" 0).k)
        (hget h2 h.length)
        ((runBatch cb (findDocs store (hget h2 h.length) desc lim) 0 "" 0).last)
        hnref3 hg1 hlt3
      have hcondf : ((runBatch cb (findDocs store (hget h2 h.length) desc lim) 0 "" 0).last = ""
          || decide ((runBatch cb (findDocs store (hget h2 h.length) desc lim) 0 "" 0).couter
            < lim)) = false := by
        rw [← Bool.not_eq_true]
        exact hcond
      refine ⟨⟨(runBatch cb (findDocs store (hget h2 h.length) desc lim) 0 "" 0).calls ++ o.calls,
        o.err, o.queries + 1⟩, hh, ?_, ?_⟩
      · simp only [hstop, hcondf, Bool.false_eq_true, if_false]
        rw [ho]
      · show o.queries + 1 ≤ store.length + 3
        omega
  · refine ⟨⟨(runBatch cb (findDocs store (hget h2 h.length) desc lim) 0 "" 0).calls,
      e, 1⟩, h2, ?_, ?_⟩
    · simp only [hstop]
    · show (1 : Nat) ≤ store.length + 3
      omega

/-- C4: partial-batch termination. If a batch query of the cursor loop
returns fewer documents than `limit`, the loop finishes after that batch
with no further query (`queries = 1` from that point, whatever the
callback does); and on every finite store — whatever the caller filter,
direction, batch size and callback — the whole `ListByCursor` run
terminates, issuing at most `store.length + 3` queries. -/
theorem cursor_partial_batch_terminates :
    (∀ (ε : Type) (store : List M) (cb : Nat → M → Bool × Option ε) (desc : Bool)
       (limit fuel : Nat) (h : Heap) (nref k : Nat),
      (findDocs store (hget h nref) desc limit).length < limit →
      ∃ out hh, cursorLoopH store cb desc limit (fuel + 1) h nref k = some (out, hh) ∧
        out.queries = 1) ∧
    (∀ (ε : Type) (store : List M) (h : Heap) (fref : Nat) (desc : Bool) (B : Int)
       (cb : Nat → M → Bool × Option ε),
      ∃ out hh, ModelListByCursor store h fref desc B cb = some (out, hh) ∧
        out.queries ≤ store.length + 3) := by
  constructor
  · intro ε store cb desc limit fuel h nref k hshort
    rw [cursorLoopH_succ]
    rcases hstop : (runBatch cb (findDocs store (hget h nref) desc limit) k "" 0).stop
      with _ | e
    · obtain ⟨hcout, _⟩ := runBatch_continue cb _ k "" 0 hstop
      simp only [Nat.zero_add] at hcout
      have hcond : ((runBatch cb (findDocs store (hget h nref) desc limit) k "" 0).last = "" ||
          decide ((runBatch cb (findDocs store (hget h nref) desc limit) k "" 0).couter
            < limit)) = true := by
        refine Bool.or_eq_true_iff.mpr (Or.inr ?_)
        rw [decide_eq_true_eq, hcout]
        exact hshort
      refine ⟨⟨(runBatch cb (findDocs store (hget h nref) desc limit) k "" 0).calls,
        none, 1⟩, h, ?_, rfl⟩
      simp [hstop, hcond]
    · exact ⟨⟨(runBatch cb (findDocs store (hget h nref) desc limit) k "" 0).calls,
        e, 1⟩, h, by simp [hstop], rfl⟩
  · intro ε store h fref desc B cb
    exact ModelListByCursor_total store h fref desc B cb

/-- Witness for C4 at a one-document store with batch size 2. -/
theorem cursor_partial_batch_terminates_witness :
    ∃ out hh, cursorLoopH [[("_id", .str "a")]]
      (fun _ _ => (true, (none : Option Unit))) false 2 1 [[]] 0 0 = some (out, hh) ∧
      out.queries = 1 := by
  refine cursor_partial_batch_terminates.1 Unit [[("_id", .str "a")]]
    (fun _ _ => (true, (none : Option Unit))) false 2 0 [[]] 0 0 ?_
  show (1 : Nat) < 2
  omega
